import Mathlib

/-
Verification of the value marshalling and ownership layer of the
dependency-rquickjs repository.

The development shallowly embeds the Rust wrapper code of
src/src/value/object.rs together with a model of the engine (QuickJS)
surface it calls through rquickjs-sys.  The engine itself is an external
collaborator of the repository; its primitive operations are modelled
from the specification (sections 3, 4.1, 4.3, 4.4 and 6 of spec.md):
reference-counted heap objects, property access by interned key atoms,
a pending-exception slot per context, and the convention that a
successful set call consumes one reference of the supplied value.
-/

set_option maxRecDepth 4096

namespace Rqjs

/-! ## Association list helpers (model of engine-internal maps) -/

def alookup {κ α : Type} [DecidableEq κ] (k : κ) : List (κ × α) → Option α
  | [] => none
  | (k', v) :: rest => if k = k' then some v else alookup k rest

def aset {κ α : Type} [DecidableEq κ] (k : κ) (v : α) : List (κ × α) → List (κ × α)
  | [] => [(k, v)]
  | (k', v') :: rest => if k = k' then (k, v) :: rest else (k', v') :: aset k v rest

def aremoveAll {κ α : Type} [DecidableEq κ] (k : κ) (l : List (κ × α)) : List (κ × α) :=
  l.filter (fun p => p.1 ≠ k)

theorem alookup_aset_self {κ α : Type} [DecidableEq κ] (k : κ) (v : α) (l : List (κ × α)) :
    alookup k (aset k v l) = some v := by
  induction l with
  | nil => simp [alookup, aset]
  | cons hd tl ih =>
    by_cases h : k = hd.1
    · simp [alookup, aset, h]
    · simp [alookup, aset, h, ih]

theorem alookup_aset_ne {κ α : Type} [DecidableEq κ] (k k' : κ) (v : α) (l : List (κ × α))
    (h : k ≠ k') : alookup k (aset k' v l) = alookup k l := by
  induction l with
  | nil => simp [alookup, aset, h]
  | cons hd tl ih =>
    by_cases h1 : k' = hd.1
    · subst h1
      simp [alookup, aset, h]
    · by_cases h2 : k = hd.1
      · simp [alookup, aset, h1, h2]
      · simp [alookup, aset, h1, h2, ih]

theorem mem_aset {κ α : Type} [DecidableEq κ] (k : κ) (v : α) (l : List (κ × α))
    (p : κ × α) (h : p ∈ aset k v l) : p = (k, v) ∨ p ∈ l := by
  induction l with
  | nil => simpa [aset] using h
  | cons hd tl ih =>
    by_cases h1 : k = hd.1
    · simp only [aset, if_pos h1, List.mem_cons] at h
      rcases h with h | h
      · exact Or.inl h
      · exact Or.inr (List.mem_cons_of_mem _ h)
    · simp only [aset, if_neg h1, List.mem_cons] at h
      rcases h with h | h
      · exact Or.inr (h ▸ List.mem_cons_self _ _)
      · rcases ih h with h | h
        · exact Or.inl h
        · exact Or.inr (List.mem_cons_of_mem _ h)

theorem alookup_mem {κ α : Type} [DecidableEq κ] (k : κ) (v : α) (l : List (κ × α))
    (h : alookup k l = some v) : (k, v) ∈ l := by
  induction l with
  | nil => simp [alookup] at h
  | cons hd tl ih =>
    by_cases h1 : k = hd.1
    · simp only [alookup, if_pos h1, Option.some.injEq] at h
      subst h1; subst h
      exact List.mem_cons_self _ _
    · simp only [alookup, if_neg h1] at h
      exact List.mem_cons_of_mem _ (ih h)

theorem alookup_aremoveAll_self {κ α : Type} [DecidableEq κ] (k : κ) (l : List (κ × α)) :
    alookup k (aremoveAll k l) = none := by
  induction l with
  | nil => simp [alookup, aremoveAll]
  | cons hd tl ih =>
    by_cases h : hd.1 = k
    · simpa [aremoveAll, h] using ih
    · have hk : k ≠ hd.1 := fun hh => h hh.symm
      simpa [aremoveAll, h, alookup, hk] using ih

theorem mem_aremoveAll {κ α : Type} [DecidableEq κ] (k : κ) (l : List (κ × α))
    (p : κ × α) (h : p ∈ aremoveAll k l) : p ∈ l :=
  List.mem_of_mem_filter h

/-! ## The value model

`JSVal` is the tagged union of engine values (spec section 3).  Heap
objects are referred to by a numeric id into the engine heap; the
`exception` tag is the sentinel value an engine call returns when it
failed and left a pending exception on the context (spec section 4.4).
-/

inductive JSVal : Type where
  | undefined : JSVal
  | null : JSVal
  | bool (b : Bool) : JSVal
  | int (n : Int) : JSVal
  | str (s : String) : JSVal
  | obj (id : Nat) : JSVal
  | exception : JSVal
deriving DecidableEq, Repr

/-- A value is primitive (inline, not reference counted) unless it is a
heap object or the exception sentinel. -/
def isPrim : JSVal → Bool
  | .obj _ => false
  | .exception => false
  | _ => true

/-- Host-level error type of the wrapper (spec section 7). -/
inductive Error : Type where
  | exception (v : JSVal) : Error
  | typeMismatch : Error
  | missingArgument : Error
deriving DecidableEq, Repr

/-! ## The engine state

Modelled from the spec: the engine (rquickjs-sys / QuickJS) is an
external collaborator; sections 3, 4.4 and 6 of the spec describe the
surface the wrapper uses.  `heap` maps live object ids to their
property lists, `refs` tracks the engine reference count of every heap
entity, `pending` is the pending-exception slot of the context and
`nextId` is the allocation counter. -/
structure Engine : Type where
  heap : List (Nat × List (String × JSVal))
  refs : List (Nat × Int)
  pending : Option JSVal
  nextId : Nat
deriving DecidableEq, Repr

def Engine.propsOf (st : Engine) (id : Nat) : Option (List (String × JSVal)) :=
  alookup id st.heap

def Engine.refOf (st : Engine) (id : Nat) : Int :=
  (alookup id st.refs).getD 0

def Engine.setProps (st : Engine) (id : Nat) (ps : List (String × JSVal)) : Engine :=
  { st with heap := aset id ps st.heap }

def Engine.setRef (st : Engine) (id : Nat) (n : Int) : Engine :=
  { st with refs := aset id n st.refs }

/-- Incrementing the engine reference count of a heap value; a no-op on
primitives (spec section 4.1). -/
def incRefVal (st : Engine) (v : JSVal) : Engine :=
  match v with
  | .obj id => st.setRef id (st.refOf id + 1)
  | _ => st

/-- Decrementing the engine reference count of a heap value; a no-op on
primitives.  This is the effect of dropping an owned host `Value`
(spec section 4.1). -/
def decRefVal (st : Engine) (v : JSVal) : Engine :=
  match v with
  | .obj id => st.setRef id (st.refOf id - 1)
  | _ => st

/-- Dropping a host-side `Value` handle runs its destructor, which
releases the one engine reference the handle owns. -/
def dropValue (st : Engine) (v : JSVal) : Engine := decRefVal st v

/-- The exception value the modelled engine raises when a raw call
fails. -/
def engineError : JSVal := .str "TypeError"

/-- The engine reporting a failure: the pending-exception slot of the
context is filled (spec section 4.4). -/
def engineRaise (st : Engine) : Engine := { st with pending := some engineError }

/-! ## Raw engine calls (modelled from the spec, sections 3, 4.3 and 6)

Failure of a raw call is modelled as the target object id not being
live in the heap; in that case the call reports failure (a negative
result code, or the exception sentinel for value-returning calls) and
fills the pending-exception slot. -/

/-- Modelled from the spec: atom interning (`JS_ValueToAtom`).  A
property key value is interned to its canonical string form; atoms are
scoped to the context and carry no counted ownership in this layer
(spec section 3, Atom). -/
def atomOf : JSVal → String
  | .undefined => "undefined"
  | .null => "null"
  | .bool b => if b then "true" else "false"
  | .int n => toString n
  | .str s => s
  | .obj _ => "[object Object]"
  | .exception => "[exception]"

/-- Modelled from the spec: keyed property read (`JS_GetProperty`).  A
successful call that returns a heap value attributes one new owning
reference to the caller (spec section 3, invariant b). -/
def JS_GetProperty (st : Engine) (id : Nat) (atom : String) : Engine × JSVal :=
  match st.propsOf id with
  | none => (engineRaise st, .exception)
  | some ps =>
    match alookup atom ps with
    | some v => (incRefVal st v, v)
    | none => (st, .undefined)

/-- Modelled from the spec: indexed property read (`JS_GetPropertyUint32`),
the fast path for numeric keys (spec section 4.3).  The unsigned index is
looked up under its decimal name. -/
def JS_GetPropertyUint32 (st : Engine) (id : Nat) (idx : Nat) : Engine × JSVal :=
  JS_GetProperty st id (toString idx)

/-- Modelled from the spec: keyed property write (`JS_SetProperty`).  On
success the engine consumes the one reference of the supplied value
(spec section 4.3: setting a property consumes one reference); an
overwritten heap value is released.  On failure (negative return code)
no ownership transfer occurs. -/
def JS_SetProperty (st : Engine) (id : Nat) (atom : String) (v : JSVal) : Engine × Int :=
  match st.propsOf id with
  | none => (engineRaise st, -1)
  | some ps =>
    let st1 :=
      match alookup atom ps with
      | some old => decRefVal st old
      | none => st
    (st1.setProps id (aset atom v ps), 0)

/-- Modelled from the spec: keyed property delete (`JS_DeleteProperty`
with the throw-on-failure mode flag).  The removed stored value is
released by the engine. -/
def JS_DeleteProperty (st : Engine) (id : Nat) (atom : String) : Engine × Int :=
  match st.propsOf id with
  | none => (engineRaise st, -1)
  | some ps =>
    let st1 :=
      match alookup atom ps with
      | some old => decRefVal st old
      | none => st
    (st1.setProps id (aremoveAll atom ps), 1)

/-- Modelled from the spec: key presence probe (`JS_HasProperty`). -/
def JS_HasProperty (st : Engine) (id : Nat) (atom : String) : Engine × Int :=
  match st.propsOf id with
  | none => (engineRaise st, -1)
  | some ps => (st, if (alookup atom ps).isSome then 1 else 0)

/-- Modelled from the spec: object construction (`JS_NewObject`): a fresh
heap entity with an empty property list and reference count one, owned
by the caller. -/
def JS_NewObject (st : Engine) : Engine × JSVal :=
  ({ st with
      heap := (st.nextId, []) :: st.heap
      refs := aset st.nextId 1 st.refs
      nextId := st.nextId + 1 },
    .obj st.nextId)

/-! ## The exception bridge and value intake (modelled from the spec,
section 4.4; the functions `value::get_exception`,
`value::handle_exception` and `Value::from_js_value` of the repository
are not under src/)  -/

/-- Modelled from the spec: `value::get_exception` atomically takes the
pending exception from the context, clearing the slot, and wraps it as
a host-level error. -/
def get_exception (st : Engine) : Engine × Error :=
  ({ st with pending := none }, .exception (st.pending.getD .undefined))

/-- Modelled from the spec: `Value::from_js_value` takes ownership of a
raw engine value; if the raw value is the exception sentinel the
pending exception is retrieved and wrapped instead. -/
def from_js_value (st : Engine) (v : JSVal) : Engine × Except Error JSVal :=
  match v with
  | .exception =>
    let (st1, e) := get_exception st
    (st1, .error e)
  | v => (st, .ok v)

/-! ## The wrapper operations (translated from src/src/value/object.rs) -/

/-- The `x as u32` cast of the source (object.rs line 43): the signed
key is reinterpreted as an unsigned 32-bit index. -/
def u32cast (x : Int) : Nat := (x % 4294967296).toNat

/-- `Object::new` (object.rs lines 27-33): raw construction followed by
the exception check. -/
def Object.new (st : Engine) : Engine × Except Error JSVal :=
  let (st1, raw) := JS_NewObject st
  from_js_value st1 raw

/-- `Object::get` (object.rs lines 36-52).  An integer key takes the
fast path through indexed access with the key cast to u32; every other
key is interned as an atom for keyed access.  The raw result goes
through the exception-aware value intake and the local key value is
dropped. -/
def Object.get (st : Engine) (o : Nat) (k : JSVal) : Engine × Except Error JSVal :=
  let (st1, raw) :=
    match k with
    | .int x => JS_GetPropertyUint32 st o (u32cast x)
    | x => JS_GetProperty st o (atomOf x)
  let (st2, res) := from_js_value st1 raw
  (dropValue st2 k, res)

/-- The numeric fast path of `Object::get` in isolation (the
`Value::Int` match arm, object.rs lines 40-44). -/
def Object.getFastPath (st : Engine) (o : Nat) (x : Int) : Engine × Except Error JSVal :=
  let (st1, raw) := JS_GetPropertyUint32 st o (u32cast x)
  let (st2, res) := from_js_value st1 raw
  (dropValue st2 (.int x), res)

/-- The general path of `Object::get` in isolation (the wildcard match
arm, object.rs lines 45-48): intern the key as an atom, keyed access. -/
def Object.getGeneralPath (st : Engine) (o : Nat) (k : JSVal) : Engine × Except Error JSVal :=
  let (st1, raw) := JS_GetProperty st o (atomOf k)
  let (st2, res) := from_js_value st1 raw
  (dropValue st2 k, res)

/-- `Object::get` followed by a host-type decode, as in the source where
the raw result is passed to `V::from_js`; the decoded raw value handle
is dropped. -/
def Object.getAs {α : Type} (dec : JSVal → Except Error α) (st : Engine) (o : Nat)
    (k : JSVal) : Engine × Except Error α :=
  let (st1, r) := Object.get st o k
  match r with
  | .ok v => (dropValue st1 v, dec v)
  | .error e => (st1, .error e)

instance {ε α : Type} [DecidableEq ε] [DecidableEq α] : DecidableEq (Except ε α) := fun a b =>
  match a, b with
  | .ok x, .ok y =>
    if h : x = y then isTrue (by rw [h])
    else isFalse (by intro hh; cases hh; exact h rfl)
  | .ok _, .error _ => isFalse (by intro hh; cases hh)
  | .error _, .ok _ => isFalse (by intro hh; cases hh)
  | .error x, .error y =>
    if h : x = y then isTrue (by rw [h])
    else isFalse (by intro hh; cases hh; exact h rfl)

/-- Result of `Object::set`, instrumented with the fate of the local
value binding: `forgotten` records that `mem::forget(val)` ran,
`valDropped` records that the local destructor of `val` ran. -/
structure SetResult : Type where
  state : Engine
  result : Except Error Unit
  forgotten : Bool
  valDropped : Bool
deriving DecidableEq, Repr

/-- `Object::set` (object.rs lines 74-88).  The key is interned as an
atom and the raw set call is issued.  On a negative result code the
pending exception is retrieved and wrapped, and the local key and value
are destroyed normally; on success `mem::forget(val)` suppresses the
value destructor because the engine took ownership, and only the key is
destroyed. -/
def Object.set (st : Engine) (o : Nat) (key val : JSVal) : SetResult :=
  let atom := atomOf key
  let (st1, code) := JS_SetProperty st o atom val
  if code < 0 then
    let (st2, err) := get_exception st1
    { state := dropValue (dropValue st2 val) key
      result := .error err
      forgotten := false
      valDropped := true }
  else
    { state := dropValue st1 key
      result := .ok ()
      forgotten := true
      valDropped := false }

/-- `Object::remove` (object.rs lines 91-106): atom interning, raw
delete with the throw flag, exception wrapping on a negative code. -/
def Object.remove (st : Engine) (o : Nat) (k : JSVal) : Engine × Except Error Unit :=
  let atom := atomOf k
  let (st1, code) := JS_DeleteProperty st o atom
  if code < 0 then
    let (st2, err) := get_exception st1
    (dropValue st2 k, .error err)
  else
    (dropValue st1 k, .ok ())

/-- `Object::contains_key` (object.rs lines 55-68): atom interning, raw
presence probe, exception wrapping on a negative code. -/
def Object.contains_key (st : Engine) (o : Nat) (k : JSVal) : Engine × Except Error Bool :=
  let atom := atomOf k
  let (st1, code) := JS_HasProperty st o atom
  if code < 0 then
    let (st2, err) := get_exception st1
    (dropValue st2 k, .error err)
  else
    (dropValue st1 k, .ok (code == 1))

/-! ## Host-type decoders (modelled from the spec, section 4.2; the
FromJs implementations for primitive host types are not under src/)

Decoding follows the native coercion rules of the engine where
applicable: numeric strings coerce to integers, numbers coerce to their
decimal strings; heap objects do not coerce to either implicitly. -/

/-- Modelled from the spec: decoding a Value as a host integer. -/
def fromJsInt (v : JSVal) : Except Error Int :=
  match v with
  | .int n => .ok n
  | .str s =>
    match s.toInt? with
    | some n => .ok n
    | none => .error .typeMismatch
  | _ => .error .typeMismatch

/-- Modelled from the spec: decoding a Value as a host string. -/
def fromJsStr (v : JSVal) : Except Error String :=
  match v with
  | .str s => .ok s
  | .int n => .ok (toString n)
  | .bool b => .ok (if b then "true" else "false")
  | .undefined => .ok "undefined"
  | .null => .ok "null"
  | _ => .error .typeMismatch

/-- The coercion domain of the integer decode, written from the words of
the spec: an integer tag always decodes, a string decodes when it is
numeric, and no other tag (in particular no heap object) coerces to an
integer. -/
def coercibleToInt (v : JSVal) : Bool :=
  match v with
  | .int _ => true
  | .str s => s.toInt?.isSome
  | _ => false

/-- The coercion domain of the string decode, written from the words of
the spec: primitives stringify through the native rules, heap objects
do not coerce implicitly. -/
def coercibleToStr (v : JSVal) : Bool :=
  match v with
  | .undefined => true
  | .null => true
  | .bool _ => true
  | .int _ => true
  | .str _ => true
  | _ => false

/-! ## Operation sequences for the ownership-balance property

A host session performs create/set/get/remove/contains operations
through the wrapper against one engine object.  Keys cross the boundary
through ToJs as inline primitives (the incidental case, as in get/set
with string or integer keys); the values flowing through the sequence
are arbitrary: a set may store a primitive or move a freshly created
object into the engine (exercising the forget-on-success transfer), a
get may duplicate a stored heap value and either drop the returned
handle at once or keep it as a live host handle until the end of the
session, a remove or an overwriting set releases the stored heap value
engine-side.  The accounting below tracks, for every heap entity, the
exact owners of its reference count: the property slots of the engine
heap holding it plus the live host handles. -/

inductive Prim : Type where
  | pUndef : Prim
  | pNull : Prim
  | pBool (b : Bool) : Prim
  | pInt (n : Int) : Prim
  | pStr (s : String) : Prim
deriving DecidableEq, Repr

def Prim.toVal : Prim → JSVal
  | .pUndef => .undefined
  | .pNull => .null
  | .pBool b => .bool b
  | .pInt n => .int n
  | .pStr s => .str s

inductive Op : Type where
  | create : Op
  | setPrim (k v : Prim) : Op
  | setNew (k : Prim) : Op
  | get (k : Prim) : Op
  | getKeep (k : Prim) : Op
  | remove (k : Prim) : Op
  | contains (k : Prim) : Op
deriving DecidableEq, Repr

/-- One step of a host session against the target object `o`.  The
session carries the list of live host handles: `create` and `getKeep`
acquire handles held until the end of the session; `setNew` creates an
object and moves the owning handle into `Object::set`; `get` drops the
returned handle at the end of the operation. -/
def runOp (o : Nat) (acc : Engine × List JSVal) (op : Op) : Engine × List JSVal :=
  match op with
  | .create =>
    let (st1, r) := Object.new acc.1
    match r with
    | .ok v => (st1, v :: acc.2)
    | .error _ => (st1, acc.2)
  | .setPrim k v => ((Object.set acc.1 o k.toVal v.toVal).state, acc.2)
  | .setNew k =>
    let (st1, r) := Object.new acc.1
    match r with
    | .ok v => ((Object.set st1 o k.toVal v).state, acc.2)
    | .error _ => (st1, acc.2)
  | .get k =>
    let (st1, r) := Object.get acc.1 o k.toVal
    match r with
    | .ok v => (dropValue st1 v, acc.2)
    | .error _ => (st1, acc.2)
  | .getKeep k =>
    let (st1, r) := Object.get acc.1 o k.toVal
    match r with
    | .ok v => (st1, v :: acc.2)
    | .error _ => (st1, acc.2)
  | .remove k => ((Object.remove acc.1 o k.toVal).1, acc.2)
  | .contains k => ((Object.contains_key acc.1 o k.toVal).1, acc.2)

/-- A session starts with no session-acquired handles. -/
def runOps (st : Engine) (o : Nat) (ops : List Op) : Engine × List JSVal :=
  ops.foldl (runOp o) (st, [])

/-- Dropping host handles runs their destructors in order. -/
def dropAllHandles (st : Engine) (hs : List JSVal) : Engine :=
  hs.foldl dropValue st

/-- One if the value is the heap entity `id`, zero otherwise: the
contribution of a single value to the owner count of `id`. -/
def toCount (id : Nat) (v : JSVal) : Nat := if v = .obj id then 1 else 0

/-- How many property slots of one object hold the heap entity `id`. -/
def countVal (id : Nat) (ps : List (String × JSVal)) : Nat :=
  ps.countP (fun p => decide (p.2 = .obj id))

/-- How many property slots of the whole engine heap hold the heap
entity `id`. -/
def slots (st : Engine) (id : Nat) : Nat :=
  (st.heap.map (fun e => countVal id e.2)).sum

/-- How many live host handles hold the heap entity `id`. -/
def handlesCount (hs : List JSVal) (id : Nat) : Nat :=
  hs.countP (fun v => decide (v = .obj id))

/-- The value references no heap entity at or above the allocation
counter. -/
def valBelow (n : Nat) : JSVal → Bool
  | .obj id => decide (id < n)
  | _ => true

/-- A well-formed engine state: heap entries and refcount entries sit
below the allocation counter, the property names of each object are
distinct, and every stored value references only allocated entities. -/
def WfState (st : Engine) : Prop :=
  (∀ e ∈ st.heap, e.1 < st.nextId ∧ (e.2.map Prod.fst).Nodup ∧
    ∀ p ∈ e.2, valBelow st.nextId p.2 = true) ∧
  (∀ e ∈ st.refs, e.1 < st.nextId)

instance (st : Engine) : Decidable (WfState st) := by
  unfold WfState
  exact inferInstance

/-- Every handle of the list references only allocated entities. -/
def HandlesWf (st : Engine) (hs : List JSVal) : Prop :=
  ∀ v ∈ hs, valBelow st.nextId v = true

instance (st : Engine) (hs : List JSVal) : Decidable (HandlesWf st hs) := by
  unfold HandlesWf
  exact inferInstance

/-! ## Basic facts about the model -/

theorem isPrim_toVal (p : Prim) : isPrim p.toVal = true := by
  cases p <;> rfl

theorem dropValue_prim (st : Engine) (v : JSVal) (h : isPrim v = true) :
    dropValue st v = st := by
  cases v <;> first | rfl | simp [isPrim] at h

theorem incRefVal_prim (st : Engine) (v : JSVal) (h : isPrim v = true) :
    incRefVal st v = st := by
  cases v <;> first | rfl | simp [isPrim] at h

theorem from_js_value_prim (st : Engine) (v : JSVal) (h : isPrim v = true) :
    from_js_value st v = (st, .ok v) := by
  cases v <;> first | rfl | simp [isPrim] at h

theorem refOf_setRef_self (st : Engine) (i : Nat) (n : Int) :
    (st.setRef i n).refOf i = n := by
  simp [Engine.setRef, Engine.refOf, alookup_aset_self]

theorem refOf_setRef_ne (st : Engine) (i j : Nat) (n : Int) (h : j ≠ i) :
    (st.setRef i n).refOf j = st.refOf j := by
  simp [Engine.setRef, Engine.refOf, alookup_aset_ne _ _ _ _ h]

theorem refOf_dropObj_self (st : Engine) (i : Nat) :
    (dropValue st (.obj i)).refOf i = st.refOf i - 1 := by
  simp [dropValue, decRefVal, refOf_setRef_self]

theorem refOf_dropObj_ne (st : Engine) (i j : Nat) (h : j ≠ i) :
    (dropValue st (.obj i)).refOf j = st.refOf j := by
  simp [dropValue, decRefVal, refOf_setRef_ne _ _ _ _ h]

theorem decRefVal_prim (st : Engine) (v : JSVal) (h : isPrim v = true) :
    decRefVal st v = st := by
  cases v <;> first | rfl | simp [isPrim] at h

/-- The shared shape of both match arms of `Object::get`: a raw keyed
read, the exception-aware intake, and the drop of the local key. -/
def getShape (st : Engine) (o : Nat) (a : String) (kv : JSVal) :
    Engine × Except Error JSVal :=
  let (st1, raw) := JS_GetProperty st o a
  let (st2, res) := from_js_value st1 raw
  (dropValue st2 kv, res)

theorem get_eq_getShape (st : Engine) (o : Nat) (k : Prim) :
    ∃ a, Object.get st o k.toVal = getShape st o a k.toVal := by
  cases k <;> exact ⟨_, rfl⟩

theorem new_eq (st : Engine) :
    Object.new st =
      ({ st with
          heap := (st.nextId, []) :: st.heap
          refs := aset st.nextId 1 st.refs
          nextId := st.nextId + 1 },
        .ok (.obj st.nextId)) := by
  rfl

/-! ## Failure-path equations and small auxiliary facts -/

theorem pending_dropValue (st : Engine) (v : JSVal) :
    (dropValue st v).pending = st.pending := by
  cases v <;> rfl

theorem heap_dropValue (st : Engine) (v : JSVal) :
    (dropValue st v).heap = st.heap := by
  cases v <;> rfl

theorem heap_decRefVal (st : Engine) (v : JSVal) :
    (decRefVal st v).heap = st.heap := by
  cases v <;> rfl

theorem propsOf_setProps_self (st : Engine) (o : Nat) (ps : List (String × JSVal)) :
    (st.setProps o ps).propsOf o = some ps := by
  simp [Engine.setProps, Engine.propsOf, alookup_aset_self]

theorem get_fail_eq (st : Engine) (o : Nat) (k : JSVal) (hp : st.propsOf o = none) :
    Object.get st o k =
      (dropValue { st with pending := none } k, .error (.exception engineError)) := by
  cases k <;>
    simp [Object.get, JS_GetPropertyUint32, JS_GetProperty, hp, from_js_value,
      get_exception, engineRaise]

theorem set_fail_eq (st : Engine) (o : Nat) (k v : JSVal) (hp : st.propsOf o = none) :
    Object.set st o k v =
      { state := dropValue (dropValue { st with pending := none } v) k
        result := .error (.exception engineError)
        forgotten := false
        valDropped := true } := by
  unfold Object.set JS_SetProperty
  simp [hp, get_exception, engineRaise]

theorem remove_fail_eq (st : Engine) (o : Nat) (k : JSVal) (hp : st.propsOf o = none) :
    Object.remove st o k =
      (dropValue { st with pending := none } k, .error (.exception engineError)) := by
  unfold Object.remove JS_DeleteProperty
  simp [hp, get_exception, engineRaise]

theorem contains_fail_eq (st : Engine) (o : Nat) (k : JSVal) (hp : st.propsOf o = none) :
    Object.contains_key st o k =
      (dropValue { st with pending := none } k, .error (.exception engineError)) := by
  unfold Object.contains_key JS_HasProperty
  simp [hp, get_exception, engineRaise]

theorem set_ok_fields (st : Engine) (o : Nat) (k v : JSVal) (ps : List (String × JSVal))
    (hp : st.propsOf o = some ps) :
    (Object.set st o k v).result = .ok () ∧
    (Object.set st o k v).forgotten = true ∧
    (Object.set st o k v).valDropped = false := by
  unfold Object.set JS_SetProperty
  simp [hp]

/-! ## String form of nonneg integers and the u32 cast -/

theorem toString_toNat (x : Int) (h : 0 ≤ x) : toString x.toNat = toString x := by
  cases x with
  | ofNat n => rfl
  | negSucc n => exact absurd h (Int.not_le.mpr (Int.negSucc_lt_zero n))

theorem u32cast_int (x : Int) (h0 : -2147483648 ≤ x) (h1 : x < 0) :
    (u32cast x : Int) = 4294967296 + x := by
  unfold u32cast
  omega

theorem u32cast_nonneg (x : Int) (h0 : 0 ≤ x) (h1 : x < 4294967296) :
    u32cast x = x.toNat := by
  unfold u32cast
  omega

/-! ## Claim C1 -/

/-- C1: for every key and value, the `Object::set` wrapper suppresses
the local destructor of the supplied value (the `mem::forget`) exactly
when the raw `JS_SetProperty` call reports success; when the call
reports failure (negative result code) no ownership transfer occurs and
the value is destroyed normally, decrementing its reference count
exactly once. -/
theorem c1_set_ownership (st : Engine) (o : Nat) (k v : JSVal)
    (hk : isPrim k = true) :
    ((Object.set st o k v).result = Except.ok () ↔
      (Object.set st o k v).forgotten = true) ∧
    ((Object.set st o k v).forgotten = true ↔
      (Object.set st o k v).valDropped = false) ∧
    (∀ id, v = JSVal.obj id → (Object.set st o k v).result ≠ Except.ok () →
      (Object.set st o k v).state.refOf id = st.refOf id - 1) := by
  rcases hp : st.propsOf o with _ | ps
  · have he := set_fail_eq st o k v hp
    rw [he]
    refine ⟨by simp, by simp, ?_⟩
    intro id hv _
    subst hv
    rw [dropValue_prim _ _ hk, refOf_dropObj_self]
    rfl
  · obtain ⟨h1, h2, h3⟩ := set_ok_fields st o k v ps hp
    refine ⟨by rw [h1, h2]; simp, by rw [h2, h3]; simp, ?_⟩
    intro id _ hne
    exact absurd h1 hne

/-- C1 witness: a failing set on a dead target destroys the value
normally (count 2 becomes 1), and a succeeding set forgets it. -/
theorem c1_set_ownership_witness :
    isPrim (JSVal.str "a") = true ∧
    (Object.set ⟨[], [(5, 2)], none, 6⟩ 0 (.str "a") (.obj 5)).state.refOf 5 =
      (⟨[], [(5, 2)], none, 6⟩ : Engine).refOf 5 - 1 := by
  refine ⟨rfl, ?_⟩
  exact (c1_set_ownership ⟨[], [(5, 2)], none, 6⟩ 0 (.str "a") (.obj 5) rfl).2.2 5 rfl
    (by decide)

/-! ## Claim C2 -/

def c2State : Engine := ⟨[(0, [("-1", .int 7)])], [(0, 1)], none, 1⟩

/-- C2: evaluation of the code at the failing input.  On an object that
has a property named "-1", the numeric fast path of `Object::get`
applied to the key `Value::Int(-1)` reads the unsigned index 4294967295
and yields undefined, while the general path (atom interning of the
same key) reads the property "-1" and yields its value 7: the two paths
disagree on an integer-valued key, contradicting the claimed
equivalence. -/
theorem c2_fastpath_divergence :
    (Object.get c2State 0 (.int (-1))).2 = .ok .undefined ∧
    (Object.getGeneralPath c2State 0 (.int (-1))).2 = .ok (.int 7) ∧
    (Object.get c2State 0 (.int (-1))).2 ≠
      (Object.getGeneralPath c2State 0 (.int (-1))).2 := by
  refine ⟨by decide, by decide, by decide⟩

/-! ## Claim C3 -/

/-- C3: when the raw engine call of an Object operation fails, each of
get, set, remove and contains_key returns an error wrapping the pending
exception retrieved from the context (the pending slot is drained, and
the error carries the raised exception value), never a bare failure
code. -/
theorem c3_exception_wrapping (st : Engine) (o : Nat) (hp : st.propsOf o = none) :
    ∀ k v : JSVal,
      ((Object.get st o k).2 = .error (.exception engineError) ∧
        (Object.get st o k).1.pending = none) ∧
      ((Object.set st o k v).result = .error (.exception engineError) ∧
        (Object.set st o k v).state.pending = none) ∧
      ((Object.remove st o k).2 = .error (.exception engineError) ∧
        (Object.remove st o k).1.pending = none) ∧
      ((Object.contains_key st o k).2 = .error (.exception engineError) ∧
        (Object.contains_key st o k).1.pending = none) := by
  intro k v
  refine ⟨?_, ?_, ?_, ?_⟩
  · rw [get_fail_eq st o k hp]
    exact ⟨rfl, by rw [pending_dropValue]⟩
  · rw [set_fail_eq st o k v hp]
    refine ⟨rfl, ?_⟩
    show (dropValue (dropValue { st with pending := none } v) k).pending = none
    rw [pending_dropValue, pending_dropValue]
  · rw [remove_fail_eq st o k hp]
    exact ⟨rfl, by rw [pending_dropValue]⟩
  · rw [contains_fail_eq st o k hp]
    exact ⟨rfl, by rw [pending_dropValue]⟩

/-- C3 witness: at a concrete dead object id every operation yields the
wrapped pending exception with the slot drained. -/
theorem c3_exception_wrapping_witness :
    (⟨[], [], none, 0⟩ : Engine).propsOf 0 = none ∧
    (Object.get ⟨[], [], none, 0⟩ 0 (.str "k")).2 =
      .error (.exception engineError) := by
  refine ⟨rfl, ?_⟩
  exact (c3_exception_wrapping ⟨[], [], none, 0⟩ 0 rfl (.str "k") .undefined).1.1

/-! ## Owner accounting: basic lemmas -/

theorem toCount_prim (id : Nat) (v : JSVal) (h : isPrim v = true) :
    toCount id v = 0 := by
  cases v <;> simp [toCount] <;> simp [isPrim] at h

theorem countVal_cons (id : Nat) (a : String) (v : JSVal) (ps : List (String × JSVal)) :
    countVal id ((a, v) :: ps) = toCount id v + countVal id ps := by
  by_cases h : v = .obj id <;>
    simp [countVal, List.countP_cons, toCount, h] <;> omega

theorem handlesCount_cons (v : JSVal) (hs : List JSVal) (id : Nat) :
    handlesCount (v :: hs) id = toCount id v + handlesCount hs id := by
  by_cases h : v = .obj id <;>
    simp [handlesCount, List.countP_cons, toCount, h] <;> omega

theorem refOf_congr (st st' : Engine) (hr : st'.refs = st.refs) (id : Nat) :
    st'.refOf id = st.refOf id := by
  unfold Engine.refOf
  rw [hr]

theorem slots_heap_congr (st st' : Engine) (hh : st'.heap = st.heap) (id : Nat) :
    slots st' id = slots st id := by
  unfold slots
  rw [hh]

theorem refOf_decRefVal (st : Engine) (v : JSVal) (id : Nat) :
    (decRefVal st v).refOf id = st.refOf id - (toCount id v : Int) := by
  cases v with
  | obj j =>
    by_cases h : j = id
    · subst h
      simp [decRefVal, refOf_setRef_self, toCount]
    · have hne : id ≠ j := fun hh => h hh.symm
      simp [decRefVal, refOf_setRef_ne st j id _ hne, toCount, h]
  | undefined => simp [decRefVal, toCount]
  | null => simp [decRefVal, toCount]
  | bool b => simp [decRefVal, toCount]
  | int n => simp [decRefVal, toCount]
  | str s => simp [decRefVal, toCount]
  | exception => simp [decRefVal, toCount]

theorem refOf_dropValue (st : Engine) (v : JSVal) (id : Nat) :
    (dropValue st v).refOf id = st.refOf id - (toCount id v : Int) :=
  refOf_decRefVal st v id

theorem refOf_incRefVal (st : Engine) (v : JSVal) (id : Nat) :
    (incRefVal st v).refOf id = st.refOf id + (toCount id v : Int) := by
  cases v with
  | obj j =>
    by_cases h : j = id
    · subst h
      simp [incRefVal, refOf_setRef_self, toCount]
    · have hne : id ≠ j := fun hh => h hh.symm
      simp [incRefVal, refOf_setRef_ne st j id _ hne, toCount, h]
  | undefined => simp [incRefVal, toCount]
  | null => simp [incRefVal, toCount]
  | bool b => simp [incRefVal, toCount]
  | int n => simp [incRefVal, toCount]
  | str s => simp [incRefVal, toCount]
  | exception => simp [incRefVal, toCount]

theorem nextId_dropValue (st : Engine) (v : JSVal) :
    (dropValue st v).nextId = st.nextId := by
  cases v <;> rfl

theorem heap_incRefVal (st : Engine) (v : JSVal) :
    (incRefVal st v).heap = st.heap := by
  cases v <;> rfl

theorem nextId_incRefVal (st : Engine) (v : JSVal) :
    (incRefVal st v).nextId = st.nextId := by
  cases v <;> rfl

theorem alookup_none_of {κ α : Type} [DecidableEq κ] (k : κ) :
    ∀ l : List (κ × α), (∀ p ∈ l, p.1 ≠ k) → alookup k l = none
  | [], _ => rfl
  | hd :: tl, h => by
    have h1 : ¬ k = hd.1 := fun hh => h hd (List.mem_cons_self _ _) hh.symm
    simp [alookup, h1,
      alookup_none_of k tl (fun p hp => h p (List.mem_cons_of_mem _ hp))]

theorem refOf_fresh (st : Engine) (hwf : WfState st) (n : Nat)
    (hn : st.nextId ≤ n) : st.refOf n = 0 := by
  have hnone : alookup n st.refs = none := by
    apply alookup_none_of
    intro p hp hpn
    have := hwf.2 p hp
    omega
  unfold Engine.refOf
  rw [hnone]
  rfl

theorem valBelow_mono (n m : Nat) (v : JSVal) (h : valBelow n v = true)
    (hm : n ≤ m) : valBelow m v = true := by
  cases v with
  | obj j =>
    simp [valBelow] at h ⊢
    omega
  | undefined => rfl
  | null => rfl
  | bool b => rfl
  | int x => rfl
  | str s => rfl
  | exception => rfl

theorem valBelow_prim (n : Nat) (v : JSVal) (h : isPrim v = true) :
    valBelow n v = true := by
  cases v <;> first | rfl | simp [isPrim] at h

theorem slots_fresh (st : Engine) (hwf : WfState st) (n : Nat)
    (hn : st.nextId ≤ n) : slots st n = 0 := by
  unfold slots
  apply List.sum_eq_zero
  intro x hx
  rcases List.mem_map.mp hx with ⟨e, he, rfl⟩
  apply List.countP_eq_zero.mpr
  intro p hp
  simp only [decide_eq_true_eq]
  intro hobj
  have hb := (hwf.1 e he).2.2 p hp
  rw [hobj] at hb
  simp [valBelow] at hb
  omega

theorem handlesCount_fresh (st : Engine) (hs : List JSVal) (hh : HandlesWf st hs)
    (n : Nat) (hn : st.nextId ≤ n) : handlesCount hs n = 0 := by
  unfold handlesCount
  apply List.countP_eq_zero.mpr
  intro v hv
  simp only [decide_eq_true_eq]
  intro hobj
  have hb := hh v hv
  rw [hobj] at hb
  simp [valBelow] at hb
  omega

theorem stored_below (st : Engine) (o : Nat) (ps : List (String × JSVal))
    (a : String) (w : JSVal) (hwf : WfState st) (hp : st.propsOf o = some ps)
    (hl : alookup a ps = some w) : valBelow st.nextId w = true :=
  (hwf.1 _ (alookup_mem _ _ _ hp)).2.2 _ (alookup_mem _ _ _ hl)

theorem stored_nodup (st : Engine) (o : Nat) (ps : List (String × JSVal))
    (hwf : WfState st) (hp : st.propsOf o = some ps) :
    (ps.map Prod.fst).Nodup :=
  (hwf.1 _ (alookup_mem _ _ _ hp)).2.1

theorem props_bound (st : Engine) (o : Nat) (ps : List (String × JSVal))
    (hwf : WfState st) (hp : st.propsOf o = some ps) : o < st.nextId :=
  (hwf.1 _ (alookup_mem _ _ _ hp)).1

/-! ## Owner accounting: property-list and heap update lemmas -/

theorem countVal_aset_found (id : Nat) (a : String) (v old : JSVal) :
    ∀ ps : List (String × JSVal), alookup a ps = some old →
    countVal id (aset a v ps) + toCount id old = countVal id ps + toCount id v
  | [], h => by simp [alookup] at h
  | (a', w) :: tl, h => by
    by_cases he : a = a'
    · subst he
      have hw : w = old := by simpa [alookup] using h
      subst hw
      rw [show aset a v ((a, w) :: tl) = (a, v) :: tl from by simp [aset]]
      rw [countVal_cons, countVal_cons]
      omega
    · rw [show aset a v ((a', w) :: tl) = (a', w) :: aset a v tl from by
        simp [aset, fun hh : a = a' => he hh]]
      have h' : alookup a tl = some old := by simpa [alookup, he] using h
      rw [countVal_cons, countVal_cons]
      have := countVal_aset_found id a v old tl h'
      omega

theorem countVal_aset_missing (id : Nat) (a : String) (v : JSVal) :
    ∀ ps : List (String × JSVal), alookup a ps = none →
    countVal id (aset a v ps) = countVal id ps + toCount id v
  | [], _ => by
    rw [show aset a v ([] : List (String × JSVal)) = (a, v) :: [] from rfl]
    rw [countVal_cons]
    have h1 : countVal id ([] : List (String × JSVal)) = 0 := rfl
    omega
  | (a', w) :: tl, h => by
    have he : ¬ a = a' := by
      intro hh
      subst hh
      simp [alookup] at h
    rw [show aset a v ((a', w) :: tl) = (a', w) :: aset a v tl from by
      simp [aset, he]]
    have h' : alookup a tl = none := by simpa [alookup, he] using h
    rw [countVal_cons, countVal_cons]
    have := countVal_aset_missing id a v tl h'
    omega

theorem aremoveAll_of_none (a : String) :
    ∀ ps : List (String × JSVal), alookup a ps = none → aremoveAll a ps = ps
  | [], _ => rfl
  | (a', w) :: tl, h => by
    have he : ¬ a = a' := by
      intro hh
      subst hh
      simp [alookup] at h
    have h' : alookup a tl = none := by simpa [alookup, he] using h
    have hne : a' ≠ a := fun hh => he hh.symm
    simp [aremoveAll, List.filter_cons, hne]
    simpa [aremoveAll] using aremoveAll_of_none a tl h'

theorem countVal_removeAll_found (id : Nat) (a : String) (old : JSVal) :
    ∀ ps : List (String × JSVal), alookup a ps = some old →
    (ps.map Prod.fst).Nodup →
    countVal id (aremoveAll a ps) + toCount id old = countVal id ps
  | [], h, _ => by simp [alookup] at h
  | (a', w) :: tl, h, hnd => by
    have hnd' : (((a', w) :: tl).map Prod.fst).Nodup := hnd
    rw [List.map_cons] at hnd'
    have hnd1 := List.nodup_cons.mp hnd'
    by_cases he : a = a'
    · subst he
      have hw : w = old := by simpa [alookup] using h
      subst hw
      have htl : alookup a tl = none := by
        apply alookup_none_of
        intro p hp hpa
        exact hnd1.1 (hpa ▸ List.mem_map.mpr ⟨p, hp, rfl⟩)
      rw [show aremoveAll a ((a, w) :: tl) = aremoveAll a tl from by
        simp [aremoveAll, List.filter_cons]]
      rw [aremoveAll_of_none a tl htl, countVal_cons]
      omega
    · have hne : a' ≠ a := fun hh => he hh.symm
      rw [show aremoveAll a ((a', w) :: tl) = (a', w) :: aremoveAll a tl from by
        simp [aremoveAll, List.filter_cons, hne]]
      have h' : alookup a tl = some old := by simpa [alookup, he] using h
      rw [countVal_cons, countVal_cons]
      have := countVal_removeAll_found id a old tl h' hnd1.2
      omega

theorem mem_keys_aset {κ α : Type} [DecidableEq κ] (a b : κ) (v : α)
    (l : List (κ × α)) (h : b ∈ (aset a v l).map Prod.fst) :
    b = a ∨ b ∈ l.map Prod.fst := by
  rcases List.mem_map.mp h with ⟨p, hp, rfl⟩
  rcases mem_aset a v l p hp with he | he
  · subst he
    exact Or.inl rfl
  · exact Or.inr (List.mem_map.mpr ⟨p, he, rfl⟩)

theorem nodup_keys_aset {κ α : Type} [DecidableEq κ] (a : κ) (v : α) :
    ∀ l : List (κ × α), (l.map Prod.fst).Nodup →
    ((aset a v l).map Prod.fst).Nodup
  | [], _ => by simp [aset]
  | hd :: tl, h => by
    have hnd' : ((hd :: tl).map Prod.fst).Nodup := h
    rw [List.map_cons] at hnd'
    have hnd1 := List.nodup_cons.mp hnd'
    by_cases he : a = hd.1
    · rw [show aset a v (hd :: tl) = (a, v) :: tl from by
        rcases hd with ⟨h1, h2⟩
        simp [aset, he]]
      simp only [List.map_cons]
      exact List.nodup_cons.mpr ⟨he ▸ hnd1.1, hnd1.2⟩
    · rw [show aset a v (hd :: tl) = hd :: aset a v tl from by
        rcases hd with ⟨h1, h2⟩
        simp only [aset]
        rw [if_neg (by simpa using he)]]
      simp only [List.map_cons]
      refine List.nodup_cons.mpr ⟨?_, nodup_keys_aset a v tl hnd1.2⟩
      intro hmem
      rcases mem_keys_aset a hd.1 v tl hmem with he' | he'
      · exact he he'.symm
      · exact hnd1.1 he'

theorem nodup_keys_removeAll (a : String) (ps : List (String × JSVal))
    (h : (ps.map Prod.fst).Nodup) :
    ((aremoveAll a ps).map Prod.fst).Nodup :=
  h.sublist ((List.filter_sublist ps).map Prod.fst)

theorem slots_aset_heap (id o : Nat) (ps ps' : List (String × JSVal)) :
    ∀ h : List (Nat × List (String × JSVal)), alookup o h = some ps →
    ((aset o ps' h).map (fun e => countVal id e.2)).sum + countVal id ps =
      (h.map (fun e => countVal id e.2)).sum + countVal id ps'
  | [], hl => by simp [alookup] at hl
  | (o', qs) :: tl, hl => by
    by_cases he : o = o'
    · subst he
      have hq : qs = ps := by simpa [alookup] using hl
      subst hq
      rw [show aset o ps' ((o, qs) :: tl) = (o, ps') :: tl from by simp [aset]]
      simp [List.sum_cons]
      omega
    · rw [show aset o ps' ((o', qs) :: tl) = (o', qs) :: aset o ps' tl from by
        simp [aset, he]]
      have hl' : alookup o tl = some ps := by simpa [alookup, he] using hl
      have := slots_aset_heap id o ps ps' tl hl'
      simp only [List.map_cons, List.sum_cons]
      omega

theorem slots_setProps (st : Engine) (o : Nat) (ps ps' : List (String × JSVal))
    (id : Nat) (hp : st.propsOf o = some ps) :
    slots (st.setProps o ps') id + countVal id ps = slots st id + countVal id ps' := by
  unfold slots Engine.setProps
  exact slots_aset_heap id o ps ps' st.heap hp

theorem slots_newObject (st : Engine) (id : Nat) :
    slots (JS_NewObject st).1 id = slots st id := by
  simp [slots, JS_NewObject, countVal]

/-! ## Owner accounting: well-formedness preservation -/

theorem wf_congr (st st' : Engine) (hh : st'.heap = st.heap)
    (hr : st'.refs = st.refs) (hn : st'.nextId = st.nextId)
    (hwf : WfState st) : WfState st' := by
  unfold WfState at *
  rw [hh, hr, hn]
  exact hwf

theorem wf_setRef (st : Engine) (j : Nat) (n : Int) (hj : j < st.nextId)
    (hwf : WfState st) : WfState (st.setRef j n) := by
  refine ⟨hwf.1, ?_⟩
  intro e he
  rcases mem_aset _ _ _ _ he with he' | he'
  · subst he'
    exact hj
  · exact hwf.2 e he'

theorem wf_decRef (st : Engine) (v : JSVal) (hv : valBelow st.nextId v = true)
    (hwf : WfState st) : WfState (decRefVal st v) := by
  cases v with
  | obj j =>
    simp [valBelow] at hv
    exact wf_setRef st j _ hv hwf
  | undefined => exact hwf
  | null => exact hwf
  | bool b => exact hwf
  | int n => exact hwf
  | str s => exact hwf
  | exception => exact hwf

theorem wf_incRef (st : Engine) (v : JSVal) (hv : valBelow st.nextId v = true)
    (hwf : WfState st) : WfState (incRefVal st v) := by
  cases v with
  | obj j =>
    simp [valBelow] at hv
    exact wf_setRef st j _ hv hwf
  | undefined => exact hwf
  | null => exact hwf
  | bool b => exact hwf
  | int n => exact hwf
  | str s => exact hwf
  | exception => exact hwf

theorem wf_setProps (st : Engine) (o : Nat) (ps ps' : List (String × JSVal))
    (hp : st.propsOf o = some ps) (hwf : WfState st)
    (hnd : (ps'.map Prod.fst).Nodup)
    (hb : ∀ p ∈ ps', valBelow st.nextId p.2 = true) :
    WfState (st.setProps o ps') := by
  refine ⟨?_, hwf.2⟩
  intro e he
  simp only [Engine.setProps] at he
  rcases mem_aset _ _ _ _ he with he' | he'
  · subst he'
    exact ⟨props_bound st o ps hwf hp, hnd, hb⟩
  · exact hwf.1 e he'

theorem wf_newObject (st : Engine) (hwf : WfState st) :
    WfState (JS_NewObject st).1 := by
  constructor
  · intro e he
    simp only [JS_NewObject, List.mem_cons] at he
    rcases he with he' | he'
    · subst he'
      refine ⟨Nat.lt_succ_self _, by simp, ?_⟩
      intro p hp
      simp at hp
    · refine ⟨Nat.lt_succ_of_lt ((hwf.1 e he').1), (hwf.1 e he').2.1, ?_⟩
      intro p hp
      exact valBelow_mono st.nextId (st.nextId + 1) p.2
        ((hwf.1 e he').2.2 p hp) (Nat.le_succ _)
  · intro e he
    simp only [JS_NewObject] at he
    rcases mem_aset _ _ _ _ he with he' | he'
    · subst he'
      exact Nat.lt_succ_self _
    · exact Nat.lt_succ_of_lt (hwf.2 e he')

theorem refOf_newObject (st : Engine) (hwf : WfState st) (id : Nat) :
    (JS_NewObject st).1.refOf id =
      st.refOf id + (toCount id (.obj st.nextId) : Int) := by
  by_cases h : id = st.nextId
  · have h0 : st.refOf id = 0 := refOf_fresh st hwf id (by omega)
    have h1 : (JS_NewObject st).1.refOf id = 1 := by
      show (alookup id (aset st.nextId 1 st.refs)).getD 0 = 1
      rw [h, alookup_aset_self]
      rfl
    rw [h0, h1]
    simp [toCount, h]
  · have h1 : (JS_NewObject st).1.refOf id = st.refOf id := by
      show (alookup id (aset st.nextId 1 st.refs)).getD 0 = st.refOf id
      rw [alookup_aset_ne _ _ _ _ h]
      rfl
    rw [h1]
    simp [toCount, h]
    omega

/-! ## Owner accounting: effect of each wrapper operation

Each lemma captures, for every heap entity, how the operation moves
ownership between the three kinds of owners: the host value being
transferred, the property slots of the heap, and everything else.  The
balance equations are written additively so that both the success and
the failure path of an operation satisfy the same equation. -/

theorem nextId_decRefVal (st : Engine) (v : JSVal) :
    (decRefVal st v).nextId = st.nextId := nextId_dropValue st v

theorem set_ok_eq_missing (st : Engine) (o : Nat) (k v : JSVal)
    (ps : List (String × JSVal)) (hp : st.propsOf o = some ps)
    (hl : alookup (atomOf k) ps = none) :
    Object.set st o k v =
      { state := dropValue (st.setProps o (aset (atomOf k) v ps)) k
        result := .ok ()
        forgotten := true
        valDropped := false } := by
  unfold Object.set JS_SetProperty
  simp [hp, hl]

theorem set_ok_eq_found (st : Engine) (o : Nat) (k v : JSVal)
    (ps : List (String × JSVal)) (old : JSVal) (hp : st.propsOf o = some ps)
    (hl : alookup (atomOf k) ps = some old) :
    Object.set st o k v =
      { state := dropValue ((decRefVal st old).setProps o (aset (atomOf k) v ps)) k
        result := .ok ()
        forgotten := true
        valDropped := false } := by
  unfold Object.set JS_SetProperty
  simp [hp, hl]

theorem set_account (st : Engine) (o : Nat) (k v : JSVal) (hk : isPrim k = true)
    (hwf : WfState st) (hv : valBelow st.nextId v = true) :
    WfState (Object.set st o k v).state ∧
    (Object.set st o k v).state.nextId = st.nextId ∧
    ∀ id, (Object.set st o k v).state.refOf id + (slots st id : Int) +
        (toCount id v : Int) =
      st.refOf id + (slots (Object.set st o k v).state id : Int) := by
  rcases hp : st.propsOf o with _ | ps
  · rw [set_fail_eq st o k v hp]
    dsimp only
    rw [dropValue_prim _ _ hk]
    refine ⟨?_, ?_, ?_⟩
    · show WfState (decRefVal ({ st with pending := none } : Engine) v)
      apply wf_decRef _ v
      · exact hv
      · exact wf_congr _ st rfl rfl rfl hwf
    · rw [nextId_dropValue]
    · intro id
      rw [refOf_dropValue]
      have h1 : ({ st with pending := none } : Engine).refOf id = st.refOf id := rfl
      have h2 : slots (dropValue { st with pending := none } v) id = slots st id := by
        apply slots_heap_congr
        rw [heap_dropValue]
      rw [h1, h2]
      omega
  · have hnd := stored_nodup st o ps hwf hp
    have hbps : ∀ p ∈ ps, valBelow st.nextId p.2 = true :=
      (hwf.1 _ (alookup_mem _ _ _ hp)).2.2
    have hbnew : ∀ p ∈ aset (atomOf k) v ps, valBelow st.nextId p.2 = true := by
      intro p hp2
      rcases mem_aset _ _ _ _ hp2 with he | he
      · subst he
        exact hv
      · exact hbps _ he
    rcases hl : alookup (atomOf k) ps with _ | old
    · rw [set_ok_eq_missing st o k v ps hp hl]
      dsimp only
      rw [dropValue_prim _ _ hk]
      refine ⟨?_, rfl, ?_⟩
      · exact wf_setProps st o ps _ hp hwf (nodup_keys_aset _ _ _ hnd) hbnew
      · intro id
        have hslots := slots_setProps st o ps (aset (atomOf k) v ps) id hp
        have hcv := countVal_aset_missing id (atomOf k) v ps hl
        have hr : (st.setProps o (aset (atomOf k) v ps)).refOf id = st.refOf id :=
          refOf_congr _ _ rfl id
        rw [hr]
        omega
    · rw [set_ok_eq_found st o k v ps old hp hl]
      dsimp only
      rw [dropValue_prim _ _ hk]
      have hold : valBelow st.nextId old = true := stored_below st o ps _ old hwf hp hl
      have hwfd : WfState (decRefVal st old) := wf_decRef st old hold hwf
      have hpd : (decRefVal st old).propsOf o = some ps := by
        unfold Engine.propsOf
        rw [heap_decRefVal]
        exact hp
      have hbnew2 : ∀ p ∈ aset (atomOf k) v ps,
          valBelow (decRefVal st old).nextId p.2 = true := by
        intro p hp2
        rw [nextId_decRefVal]
        exact hbnew p hp2
      refine ⟨?_, nextId_decRefVal st old, ?_⟩
      · exact wf_setProps (decRefVal st old) o ps _ hpd hwfd
          (nodup_keys_aset _ _ _ hnd) hbnew2
      · intro id
        have hslots := slots_setProps (decRefVal st old) o ps
          (aset (atomOf k) v ps) id hpd
        have hcv := countVal_aset_found id (atomOf k) v old ps hl
        have hrd := refOf_decRefVal st old id
        have hr2 : ((decRefVal st old).setProps o (aset (atomOf k) v ps)).refOf id =
            (decRefVal st old).refOf id := refOf_congr _ _ rfl id
        have hsl : slots (decRefVal st old) id = slots st id :=
          slots_heap_congr st _ (heap_decRefVal st old) id
        rw [hr2, hrd]
        rw [hsl] at hslots
        omega

theorem remove_ok_eq_missing (st : Engine) (o : Nat) (k : JSVal)
    (ps : List (String × JSVal)) (hp : st.propsOf o = some ps)
    (hl : alookup (atomOf k) ps = none) :
    Object.remove st o k =
      (dropValue (st.setProps o (aremoveAll (atomOf k) ps)) k, .ok ()) := by
  unfold Object.remove JS_DeleteProperty
  simp [hp, hl]

theorem remove_ok_eq_found (st : Engine) (o : Nat) (k : JSVal)
    (ps : List (String × JSVal)) (old : JSVal) (hp : st.propsOf o = some ps)
    (hl : alookup (atomOf k) ps = some old) :
    Object.remove st o k =
      (dropValue ((decRefVal st old).setProps o (aremoveAll (atomOf k) ps)) k,
        .ok ()) := by
  unfold Object.remove JS_DeleteProperty
  simp [hp, hl]

theorem remove_account (st : Engine) (o : Nat) (k : JSVal) (hk : isPrim k = true)
    (hwf : WfState st) :
    WfState (Object.remove st o k).1 ∧
    (Object.remove st o k).1.nextId = st.nextId ∧
    ∀ id, (Object.remove st o k).1.refOf id + (slots st id : Int) =
      st.refOf id + (slots (Object.remove st o k).1 id : Int) := by
  rcases hp : st.propsOf o with _ | ps
  · rw [remove_fail_eq st o k hp]
    dsimp only
    rw [dropValue_prim _ _ hk]
    refine ⟨wf_congr _ st rfl rfl rfl hwf, rfl, ?_⟩
    intro id
    have h1 : ({ st with pending := none } : Engine).refOf id = st.refOf id := rfl
    have h2 : slots ({ st with pending := none } : Engine) id = slots st id := rfl
    rw [h1, h2]
  · have hnd := stored_nodup st o ps hwf hp
    have hbrem : ∀ p ∈ aremoveAll (atomOf k) ps, valBelow st.nextId p.2 = true := by
      intro p hp2
      exact (hwf.1 _ (alookup_mem _ _ _ hp)).2.2 _ (mem_aremoveAll _ _ _ hp2)
    rcases hl : alookup (atomOf k) ps with _ | old
    · rw [remove_ok_eq_missing st o k ps hp hl]
      dsimp only
      rw [dropValue_prim _ _ hk]
      refine ⟨?_, rfl, ?_⟩
      · exact wf_setProps st o ps _ hp hwf (nodup_keys_removeAll _ _ hnd) hbrem
      · intro id
        have hslots := slots_setProps st o ps (aremoveAll (atomOf k) ps) id hp
        have hcv : countVal id (aremoveAll (atomOf k) ps) = countVal id ps := by
          rw [aremoveAll_of_none _ _ hl]
        have hr : (st.setProps o (aremoveAll (atomOf k) ps)).refOf id = st.refOf id :=
          refOf_congr _ _ rfl id
        rw [hr]
        omega
    · rw [remove_ok_eq_found st o k ps old hp hl]
      dsimp only
      rw [dropValue_prim _ _ hk]
      have hold : valBelow st.nextId old = true := stored_below st o ps _ old hwf hp hl
      have hwfd : WfState (decRefVal st old) := wf_decRef st old hold hwf
      have hpd : (decRefVal st old).propsOf o = some ps := by
        unfold Engine.propsOf
        rw [heap_decRefVal]
        exact hp
      have hbrem2 : ∀ p ∈ aremoveAll (atomOf k) ps,
          valBelow (decRefVal st old).nextId p.2 = true := by
        intro p hp2
        rw [nextId_decRefVal]
        exact hbrem p hp2
      refine ⟨?_, nextId_decRefVal st old, ?_⟩
      · exact wf_setProps (decRefVal st old) o ps _ hpd hwfd
          (nodup_keys_removeAll _ _ hnd) hbrem2
      · intro id
        have hslots := slots_setProps (decRefVal st old) o ps
          (aremoveAll (atomOf k) ps) id hpd
        have hcv := countVal_removeAll_found id (atomOf k) old ps hl hnd
        have hrd := refOf_decRefVal st old id
        have hr2 : ((decRefVal st old).setProps o
            (aremoveAll (atomOf k) ps)).refOf id =
            (decRefVal st old).refOf id := refOf_congr _ _ rfl id
        have hsl : slots (decRefVal st old) id = slots st id :=
          slots_heap_congr st _ (heap_decRefVal st old) id
        rw [hr2, hrd]
        rw [hsl] at hslots
        omega

theorem from_js_value_ok (st : Engine) (v : JSVal) (h : v ≠ .exception) :
    from_js_value st v = (st, .ok v) := by
  cases v <;> first | rfl | exact absurd rfl h

theorem getShape_account (st : Engine) (o : Nat) (a : String) (kv : JSVal)
    (hkv : isPrim kv = true) (hwf : WfState st) :
    (getShape st o a kv).1.heap = st.heap ∧
    (getShape st o a kv).1.nextId = st.nextId ∧
    WfState (getShape st o a kv).1 ∧
    (∀ v, (getShape st o a kv).2 = .ok v →
      valBelow st.nextId v = true ∧
      ∀ id, (getShape st o a kv).1.refOf id = st.refOf id + (toCount id v : Int)) ∧
    (∀ e, (getShape st o a kv).2 = .error e →
      (getShape st o a kv).1.refs = st.refs) := by
  unfold getShape
  rcases hp : st.propsOf o with _ | ps
  · have hraw : JS_GetProperty st o a = (engineRaise st, .exception) := by
      unfold JS_GetProperty
      rw [hp]
    rw [hraw]
    dsimp only
    rw [show from_js_value (engineRaise st) JSVal.exception =
        ({ st with pending := none }, .error (.exception engineError)) from rfl]
    dsimp only
    rw [dropValue_prim _ _ hkv]
    refine ⟨rfl, rfl, wf_congr _ st rfl rfl rfl hwf, ?_, ?_⟩
    · intro v hv
      exact absurd hv (by simp)
    · intro e _
      rfl
  · rcases hl : alookup a ps with _ | w
    · have hraw : JS_GetProperty st o a = (st, .undefined) := by
        unfold JS_GetProperty
        simp [hp, hl]
      rw [hraw]
      dsimp only
      rw [show from_js_value st JSVal.undefined = (st, .ok .undefined) from rfl]
      dsimp only
      rw [dropValue_prim _ _ hkv]
      refine ⟨rfl, rfl, hwf, ?_, ?_⟩
      · intro v hv
        cases hv
        refine ⟨rfl, ?_⟩
        intro id
        simp [toCount]
      · intro e he
        exact absurd he (by simp)
    · have hraw : JS_GetProperty st o a = (incRefVal st w, w) := by
        unfold JS_GetProperty
        simp [hp, hl]
      rw [hraw]
      dsimp only
      have hwb : valBelow st.nextId w = true := stored_below st o ps a w hwf hp hl
      by_cases hex : w = .exception
      · subst hex
        rw [show incRefVal st JSVal.exception = st from rfl]
        rw [show from_js_value st JSVal.exception =
            ({ st with pending := none },
              .error (.exception (st.pending.getD .undefined))) from rfl]
        dsimp only
        rw [dropValue_prim _ _ hkv]
        refine ⟨rfl, rfl, wf_congr _ st rfl rfl rfl hwf, ?_, ?_⟩
        · intro v hv
          exact absurd hv (by simp)
        · intro e _
          rfl
      · rw [from_js_value_ok (incRefVal st w) w hex]
        dsimp only
        rw [dropValue_prim _ _ hkv]
        refine ⟨heap_incRefVal st w, nextId_incRefVal st w,
          wf_incRef st w hwb hwf, ?_, ?_⟩
        · intro v hv
          cases hv
          exact ⟨hwb, fun id => refOf_incRefVal st w id⟩
        · intro e he
          exact absurd he (by simp)

theorem get_account (st : Engine) (o : Nat) (k : Prim) (hwf : WfState st) :
    (Object.get st o k.toVal).1.heap = st.heap ∧
    (Object.get st o k.toVal).1.nextId = st.nextId ∧
    WfState (Object.get st o k.toVal).1 ∧
    (∀ v, (Object.get st o k.toVal).2 = .ok v →
      valBelow st.nextId v = true ∧
      ∀ id, (Object.get st o k.toVal).1.refOf id =
        st.refOf id + (toCount id v : Int)) ∧
    (∀ e, (Object.get st o k.toVal).2 = .error e →
      (Object.get st o k.toVal).1.refs = st.refs) := by
  obtain ⟨a, ha⟩ := get_eq_getShape st o k
  rw [ha]
  exact getShape_account st o a k.toVal (isPrim_toVal k) hwf

theorem contains_account (st : Engine) (o : Nat) (k : JSVal) (hk : isPrim k = true) :
    (Object.contains_key st o k).1.heap = st.heap ∧
    (Object.contains_key st o k).1.refs = st.refs ∧
    (Object.contains_key st o k).1.nextId = st.nextId := by
  rcases hp : st.propsOf o with _ | ps
  · rw [contains_fail_eq st o k hp]
    dsimp only
    rw [dropValue_prim _ _ hk]
    exact ⟨rfl, rfl, rfl⟩
  · unfold Object.contains_key JS_HasProperty
    rw [hp]
    dsimp only
    by_cases hs : (alookup (atomOf k) ps).isSome
    · simp [hs, dropValue_prim _ _ hk]
    · simp [hs, dropValue_prim _ _ hk]

/-! ## The session invariant and its preservation -/

/-- The owner-accounting invariant of a host session: the engine state
is well formed, the baseline handles and the session-acquired handles
reference allocated entities, and the reference count of every heap
entity equals the number of its owners — its property slots plus the
baseline handles plus the session-acquired handles. -/
def SessionInv (hs0 : List JSVal) (acc : Engine × List JSVal) : Prop :=
  WfState acc.1 ∧ HandlesWf acc.1 hs0 ∧ HandlesWf acc.1 acc.2 ∧
  ∀ id, acc.1.refOf id =
    (slots acc.1 id : Int) + (handlesCount hs0 id : Int) +
    (handlesCount acc.2 id : Int)

theorem runOp_session (o : Nat) (hs0 : List JSVal) (acc : Engine × List JSVal)
    (op : Op) (h : SessionInv hs0 acc) : SessionInv hs0 (runOp o acc op) := by
  obtain ⟨hwf, hh0, hhc, hacc⟩ := h
  cases op with
  | create =>
    have hrun : runOp o acc .create =
        ((JS_NewObject acc.1).1, .obj acc.1.nextId :: acc.2) := by
      simp only [runOp, new_eq]
      rfl
    rw [hrun]
    unfold SessionInv
    dsimp only
    refine ⟨wf_newObject acc.1 hwf, ?_, ?_, ?_⟩
    · intro w hw
      exact valBelow_mono acc.1.nextId _ w (hh0 w hw) (Nat.le_succ _)
    · intro w hw
      rcases List.mem_cons.mp hw with rfl | hw2
      · show valBelow (acc.1.nextId + 1) (.obj acc.1.nextId) = true
        simp [valBelow]
      · exact valBelow_mono acc.1.nextId _ w (hhc w hw2) (Nat.le_succ _)
    · intro id
      have h2 := refOf_newObject acc.1 hwf id
      have h3 := slots_newObject acc.1 id
      have h5 := handlesCount_cons (.obj acc.1.nextId) acc.2 id
      have h4 := hacc id
      rw [h2, h3, h5]
      omega
  | setPrim k v =>
    show SessionInv hs0 ((Object.set acc.1 o k.toVal v.toVal).state, acc.2)
    unfold SessionInv
    dsimp only
    obtain ⟨hwf1, hnext, hbal⟩ := set_account acc.1 o k.toVal v.toVal
      (isPrim_toVal k) hwf (valBelow_prim _ _ (isPrim_toVal v))
    refine ⟨hwf1, ?_, ?_, ?_⟩
    · intro w hw
      rw [hnext]
      exact hh0 w hw
    · intro w hw
      rw [hnext]
      exact hhc w hw
    · intro id
      have h1 := hbal id
      have h2 : toCount id v.toVal = 0 := toCount_prim id _ (isPrim_toVal v)
      have h4 := hacc id
      rw [h2] at h1
      omega
  | setNew k =>
    have hrun : runOp o acc (.setNew k) =
        ((Object.set (JS_NewObject acc.1).1 o k.toVal (.obj acc.1.nextId)).state,
          acc.2) := by
      simp only [runOp, new_eq]
      rfl
    rw [hrun]
    unfold SessionInv
    dsimp only
    have hwfN : WfState (JS_NewObject acc.1).1 := wf_newObject acc.1 hwf
    have hvb : valBelow (JS_NewObject acc.1).1.nextId (.obj acc.1.nextId) = true := by
      show valBelow (acc.1.nextId + 1) (.obj acc.1.nextId) = true
      simp [valBelow]
    obtain ⟨hwf1, hnext, hbal⟩ := set_account (JS_NewObject acc.1).1 o k.toVal
      (.obj acc.1.nextId) (isPrim_toVal k) hwfN hvb
    have hnext2 : (Object.set (JS_NewObject acc.1).1 o k.toVal
        (.obj acc.1.nextId)).state.nextId = acc.1.nextId + 1 := by
      rw [hnext]
      rfl
    refine ⟨hwf1, ?_, ?_, ?_⟩
    · intro w hw
      rw [hnext2]
      exact valBelow_mono acc.1.nextId _ w (hh0 w hw) (Nat.le_succ _)
    · intro w hw
      rw [hnext2]
      exact valBelow_mono acc.1.nextId _ w (hhc w hw) (Nat.le_succ _)
    · intro id
      have h1 := hbal id
      have h2 := refOf_newObject acc.1 hwf id
      have h3 := slots_newObject acc.1 id
      have h4 := hacc id
      rw [h3, h2] at h1
      omega
  | get k =>
    obtain ⟨hheap, hnext, hwf1, hok, herr⟩ := get_account acc.1 o k hwf
    simp only [runOp]
    rcases hget : Object.get acc.1 o k.toVal with ⟨st1, r⟩
    rw [hget] at hheap hnext hwf1 hok herr
    dsimp only at hheap hnext hwf1 hok herr
    cases r with
    | error e =>
      show SessionInv hs0 (st1, acc.2)
      unfold SessionInv
      dsimp only
      have hrefs : st1.refs = acc.1.refs := herr e rfl
      refine ⟨hwf1, ?_, ?_, ?_⟩
      · intro w hw
        rw [hnext]
        exact hh0 w hw
      · intro w hw
        rw [hnext]
        exact hhc w hw
      · intro id
        rw [refOf_congr acc.1 st1 hrefs id, slots_heap_congr acc.1 st1 hheap id]
        exact hacc id
    | ok v =>
      show SessionInv hs0 (dropValue st1 v, acc.2)
      unfold SessionInv
      dsimp only
      obtain ⟨hvb, href⟩ := hok v rfl
      refine ⟨?_, ?_, ?_, ?_⟩
      · exact wf_decRef st1 v (by rw [hnext]; exact hvb) hwf1
      · intro w hw
        rw [nextId_dropValue, hnext]
        exact hh0 w hw
      · intro w hw
        rw [nextId_dropValue, hnext]
        exact hhc w hw
      · intro id
        have h1 := refOf_dropValue st1 v id
        have h2 : slots (dropValue st1 v) id = slots acc.1 id := by
          rw [slots_heap_congr st1 _ (heap_dropValue st1 v) id,
            slots_heap_congr acc.1 st1 hheap id]
        have h3 := href id
        have h4 := hacc id
        rw [h1, h2]
        omega
  | getKeep k =>
    obtain ⟨hheap, hnext, hwf1, hok, herr⟩ := get_account acc.1 o k hwf
    simp only [runOp]
    rcases hget : Object.get acc.1 o k.toVal with ⟨st1, r⟩
    rw [hget] at hheap hnext hwf1 hok herr
    dsimp only at hheap hnext hwf1 hok herr
    cases r with
    | error e =>
      show SessionInv hs0 (st1, acc.2)
      unfold SessionInv
      dsimp only
      have hrefs : st1.refs = acc.1.refs := herr e rfl
      refine ⟨hwf1, ?_, ?_, ?_⟩
      · intro w hw
        rw [hnext]
        exact hh0 w hw
      · intro w hw
        rw [hnext]
        exact hhc w hw
      · intro id
        rw [refOf_congr acc.1 st1 hrefs id, slots_heap_congr acc.1 st1 hheap id]
        exact hacc id
    | ok v =>
      show SessionInv hs0 (st1, v :: acc.2)
      unfold SessionInv
      dsimp only
      obtain ⟨hvb, href⟩ := hok v rfl
      refine ⟨hwf1, ?_, ?_, ?_⟩
      · intro w hw
        rw [hnext]
        exact hh0 w hw
      · intro w hw
        rcases List.mem_cons.mp hw with rfl | hw2
        · rw [hnext]
          exact hvb
        · rw [hnext]
          exact hhc w hw2
      · intro id
        have h1 := href id
        have h2 : slots st1 id = slots acc.1 id :=
          slots_heap_congr acc.1 st1 hheap id
        have h3 := handlesCount_cons v acc.2 id
        have h4 := hacc id
        rw [h1, h2, h3]
        omega
  | remove k =>
    show SessionInv hs0 ((Object.remove acc.1 o k.toVal).1, acc.2)
    unfold SessionInv
    dsimp only
    obtain ⟨hwf1, hnext, hbal⟩ := remove_account acc.1 o k.toVal
      (isPrim_toVal k) hwf
    refine ⟨hwf1, ?_, ?_, ?_⟩
    · intro w hw
      rw [hnext]
      exact hh0 w hw
    · intro w hw
      rw [hnext]
      exact hhc w hw
    · intro id
      have h1 := hbal id
      have h4 := hacc id
      omega
  | contains k =>
    show SessionInv hs0 ((Object.contains_key acc.1 o k.toVal).1, acc.2)
    unfold SessionInv
    dsimp only
    obtain ⟨hheap, hrefs, hnext⟩ := contains_account acc.1 o k.toVal
      (isPrim_toVal k)
    refine ⟨wf_congr acc.1 _ hheap hrefs hnext hwf, ?_, ?_, ?_⟩
    · intro w hw
      rw [hnext]
      exact hh0 w hw
    · intro w hw
      rw [hnext]
      exact hhc w hw
    · intro id
      rw [refOf_congr acc.1 _ hrefs id, slots_heap_congr acc.1 _ hheap id]
      exact hacc id

theorem runOps_session (o : Nat) (hs0 : List JSVal) (ops : List Op) :
    ∀ acc : Engine × List JSVal, SessionInv hs0 acc →
    SessionInv hs0 (ops.foldl (runOp o) acc) := by
  induction ops with
  | nil =>
    intro acc h
    exact h
  | cons op tl ih =>
    intro acc h
    exact ih (runOp o acc op) (runOp_session o hs0 acc op h)

theorem dropHandles_account (hs0 : List JSVal) :
    ∀ (cur : List JSVal) (st : Engine),
    (∀ id, st.refOf id = (slots st id : Int) + (handlesCount hs0 id : Int) +
      (handlesCount cur id : Int)) →
    ∀ id, (dropAllHandles st cur).refOf id =
      (slots (dropAllHandles st cur) id : Int) + (handlesCount hs0 id : Int)
  | [], st, h, id => by
    have h1 := h id
    have h2 : handlesCount ([] : List JSVal) id = 0 := rfl
    rw [h2] at h1
    show st.refOf id = (slots st id : Int) + (handlesCount hs0 id : Int)
    omega
  | v :: tl, st, h, id => by
    show (dropAllHandles (dropValue st v) tl).refOf id =
      (slots (dropAllHandles (dropValue st v) tl) id : Int) +
      (handlesCount hs0 id : Int)
    apply dropHandles_account hs0 tl (dropValue st v)
    intro j
    have h1 := h j
    have h2 := handlesCount_cons v tl j
    have h3 := refOf_dropValue st v j
    have h4 : slots (dropValue st v) j = slots st j :=
      slots_heap_congr st _ (heap_dropValue st v) j
    rw [h2] at h1
    rw [h3, h4]
    omega

/-! ## Claim C4 -/

/-- C4: the ownership discipline of object.rs is leak-free and
over-release-free.  Across any host session against an object — creates,
sets that transfer a freshly created heap value into the engine
(`mem::forget` on success), gets that receive a duplicated owning
reference and either drop it or retain it, removes, presence probes —
once every handle acquired during the session is dropped, the engine
reference count of every heap entity equals exactly the number of owners
that remain: its property slots plus the baseline handles.  In
particular, every entity whose slot count returns to its pre-session
value has exactly its pre-session reference count: no reference is
leaked and none is released twice. -/
theorem c4_ownership_balance (st0 : Engine) (hs0 : List JSVal) (o : Nat)
    (ops : List Op) (hwf : WfState st0) (hh0 : HandlesWf st0 hs0)
    (hacc : ∀ id, st0.refOf id =
      (slots st0 id : Int) + (handlesCount hs0 id : Int)) :
    (∀ id, (dropAllHandles (runOps st0 o ops).1 (runOps st0 o ops).2).refOf id =
      (slots (dropAllHandles (runOps st0 o ops).1 (runOps st0 o ops).2) id : Int) +
      (handlesCount hs0 id : Int)) ∧
    (∀ id, slots (dropAllHandles (runOps st0 o ops).1 (runOps st0 o ops).2) id =
        slots st0 id →
      (dropAllHandles (runOps st0 o ops).1 (runOps st0 o ops).2).refOf id =
        st0.refOf id) := by
  have hinv0 : SessionInv hs0 (st0, []) := by
    refine ⟨hwf, hh0, ?_, ?_⟩
    · intro v hv
      cases hv
    · intro id
      show st0.refOf id = (slots st0 id : Int) + (handlesCount hs0 id : Int) +
        (handlesCount ([] : List JSVal) id : Int)
      have h1 : handlesCount ([] : List JSVal) id = 0 := rfl
      rw [h1]
      have h2 := hacc id
      omega
  obtain ⟨hwfF, hh0F, hhcF, haccF⟩ := runOps_session o hs0 ops (st0, []) hinv0
  have hfin := dropHandles_account hs0 (runOps st0 o ops).2 (runOps st0 o ops).1
    haccF
  refine ⟨hfin, ?_⟩
  intro id hslot
  have h1 := hfin id
  have h2 := hacc id
  rw [hslot] at h1
  omega

/-- A concrete baseline for the C4 witness: one live object (id 0, the
target) with reference count one, held by one baseline handle. -/
def c4State : Engine := ⟨[(0, [])], [(0, 1)], none, 1⟩

/-- The baseline handles of the C4 witness session. -/
def c4Handles : List JSVal := [.obj 0]

/-- A session exercising every operation: a retained create, a transfer
of a fresh object into a slot, a retained duplicate-get, a dropped
duplicate-get, a remove releasing the stored object, a second transfer,
a primitive overwrite releasing it, and a presence probe. -/
def c4Ops : List Op :=
  [.create, .setNew (.pStr "x"), .getKeep (.pStr "x"), .get (.pStr "x"),
    .remove (.pStr "x"), .setNew (.pStr "y"), .setPrim (.pStr "y") (.pInt 5),
    .contains (.pStr "y")]

theorem c4_ownership_balance_witness :
    WfState c4State ∧ HandlesWf c4State c4Handles ∧
    (∀ id, (dropAllHandles (runOps c4State 0 c4Ops).1
        (runOps c4State 0 c4Ops).2).refOf id =
      (slots (dropAllHandles (runOps c4State 0 c4Ops).1
        (runOps c4State 0 c4Ops).2) id : Int) +
      (handlesCount c4Handles id : Int)) ∧
    (dropAllHandles (runOps c4State 0 c4Ops).1 (runOps c4State 0 c4Ops).2).refOf 2
      = 0 ∧
    (dropAllHandles (runOps c4State 0 c4Ops).1 (runOps c4State 0 c4Ops).2).refOf 0
      = c4State.refOf 0 := by
  have hacc : ∀ id, c4State.refOf id =
      (slots c4State id : Int) + (handlesCount c4Handles id : Int) := fun id =>
    match id with
    | 0 => by decide
    | _ + 1 => rfl
  have hmain := c4_ownership_balance c4State c4Handles 0 c4Ops (by decide)
    (by decide) hacc
  refine ⟨by decide, by decide, hmain.1, ?_, ?_⟩
  · decide
  · exact hmain.2 0 (by decide)

/-! ## Claim C6 -/

def c6State : Engine := ⟨[(0, [("a", .int 3)])], [(0, 1)], none, 1⟩

/-- C6: decoding follows the native coercion rules of the engine: on an
object with property a holding the integer 3, get of "a" decodes to the
host integer 3 and the same get decodes to the host string "3"; and a
decode fails with TypeMismatch exactly when the runtime tag of the
Value is outside the coercion domain of the requested host type. -/
theorem c6_decode_follows_coercion :
    (Object.getAs fromJsInt c6State 0 (.str "a")).2 = .ok 3 ∧
    (Object.getAs fromJsStr c6State 0 (.str "a")).2 = .ok "3" ∧
    (∀ v, fromJsInt v = .error .typeMismatch ↔ coercibleToInt v = false) ∧
    (∀ v, fromJsStr v = .error .typeMismatch ↔ coercibleToStr v = false) := by
  refine ⟨by decide, by decide, ?_, ?_⟩
  · intro v
    cases v with
    | str s => rcases h : s.toInt? with _ | n <;> simp [fromJsInt, coercibleToInt, h]
    | undefined => simp [fromJsInt, coercibleToInt]
    | null => simp [fromJsInt, coercibleToInt]
    | bool b => simp [fromJsInt, coercibleToInt]
    | int n => simp [fromJsInt, coercibleToInt]
    | obj id => simp [fromJsInt, coercibleToInt]
    | exception => simp [fromJsInt, coercibleToInt]
  · intro v
    cases v <;> simp [fromJsStr, coercibleToStr]

/-! ## Claim C7 -/

/-- A key whose lookup name agrees between the two paths of
`Object::get`: every key except a negative (or out-of-u32-range)
integer key. -/
def keyConsistent : JSVal → Bool
  | .int x => decide (0 ≤ x ∧ x < 4294967296)
  | _ => true

theorem remove_ok_state (st : Engine) (o : Nat) (k : JSVal)
    (ps : List (String × JSVal)) (hp : st.propsOf o = some ps) :
    (Object.remove st o k).2 = .ok () ∧
    (Object.remove st o k).1.propsOf o = some (aremoveAll (atomOf k) ps) := by
  have hps : ∀ stX : Engine,
      (dropValue (stX.setProps o (aremoveAll (atomOf k) ps)) k).propsOf o =
        some (aremoveAll (atomOf k) ps) := by
    intro stX
    unfold Engine.propsOf
    rw [heap_dropValue]
    show alookup o (aset o _ stX.heap) = _
    rw [alookup_aset_self]
  unfold Object.remove JS_DeleteProperty
  rcases hl : alookup (atomOf k) ps with _ | old
  · simp [hp, hl]
    exact hps st
  · simp [hp, hl]
    exact hps (decRefVal st old)

theorem get_missing (st : Engine) (o : Nat) (k : JSVal)
    (ps : List (String × JSVal)) (hk : keyConsistent k = true)
    (hp : st.propsOf o = some ps) (hm : alookup (atomOf k) ps = none) :
    (Object.get st o k).2 = .ok .undefined := by
  have hgen : ∀ a, alookup a ps = none → (getShape st o a k).2 = .ok .undefined := by
    intro a ha
    unfold getShape JS_GetProperty
    simp [hp, ha, from_js_value]
  cases k with
  | int x =>
    have hx : 0 ≤ x ∧ x < 4294967296 := by simpa [keyConsistent] using hk
    have hstr : toString (u32cast x) = toString x := by
      rw [u32cast_nonneg x hx.1 hx.2, toString_toNat x hx.1]
    have hshape : Object.get st o (.int x) =
        getShape st o (toString (u32cast x)) (.int x) := rfl
    rw [hshape, hstr]
    exact hgen (toString x) hm
  | undefined => exact hgen _ hm
  | null => exact hgen _ hm
  | bool b => exact hgen _ hm
  | str s => exact hgen _ hm
  | obj id => exact hgen _ hm
  | exception => exact hgen _ hm

def c7State : Engine := ⟨[(0, [("4294967295", .int 9)])], [(0, 1)], none, 1⟩

/-- C7 counterexample: on an object that has a property named
"4294967295", removing the key `Value::Int(-1)` succeeds (it deletes
the — absent — property "-1"), but the subsequent get of the same key
takes the numeric fast path to unsigned index 4294967295 and decodes to
the integer 9, not to Undefined: the claim fails as stated for a
negative-integer key. -/
theorem c7_counterexample :
    (Object.remove c7State 0 (.int (-1))).2 = .ok () ∧
    (Object.get (Object.remove c7State 0 (.int (-1))).1 0 (.int (-1))).2 =
      .ok (.int 9) ∧
    (Object.get (Object.remove c7State 0 (.int (-1))).1 0 (.int (-1))).2 ≠
      .ok .undefined := by
  refine ⟨by decide, by decide, by decide⟩

/-- C7 amended: for every object and every key k other than a
negative (or out-of-u32-range) integer key, after `Object::remove(k)`
succeeds, a subsequent `Object::get(k)` succeeds and decodes to the
Undefined value. -/
theorem c7_remove_then_get (st : Engine) (o : Nat) (k : JSVal)
    (hk : keyConsistent k = true)
    (hrem : (Object.remove st o k).2 = .ok ()) :
    (Object.get (Object.remove st o k).1 o k).2 = .ok .undefined := by
  rcases hp : st.propsOf o with _ | ps
  · rw [remove_fail_eq st o k hp] at hrem
    simp at hrem
  · obtain ⟨_, hps⟩ := remove_ok_state st o k ps hp
    exact get_missing _ o k _ hk hps (alookup_aremoveAll_self _ _)

def c7WState : Engine := ⟨[(0, [("hallo", .str "foo")])], [(0, 1)], none, 1⟩

/-- C7 witness: the concrete scenario of the source test — set then
remove of "hallo", after which get of "hallo" decodes to Undefined. -/
theorem c7_remove_then_get_witness :
    keyConsistent (.str "hallo") = true ∧
    (Object.remove c7WState 0 (.str "hallo")).2 = .ok () ∧
    (Object.get (Object.remove c7WState 0 (.str "hallo")).1 0 (.str "hallo")).2 =
      .ok .undefined := by
  refine ⟨rfl, by decide, ?_⟩
  exact c7_remove_then_get c7WState 0 (.str "hallo") rfl (by decide)

/-! ## Claim C10 -/

/-- C10: for every integer key in the i32 range of `Value::Int`, the
fast path of `Object::get` performs the lookup at the unsigned index
equal to the key cast to u32 (the key modulo 2^32); in particular a
negative key x is looked up at the index 2^32 + x — that is, under the
decimal name of 2^32 + x — rather than under the decimal string of the
negative integer itself. -/
theorem c10_negative_key_cast (x : Int) (h0 : -2147483648 ≤ x) (h1 : x < 0) :
    (u32cast x : Int) = 4294967296 + x ∧
    ∀ st o, Object.get st o (.int x) =
      Object.get st o (.str (toString (4294967296 + x))) := by
  have hcast := u32cast_int x h0 h1
  refine ⟨hcast, ?_⟩
  intro st o
  have h2 : u32cast x = (4294967296 + x).toNat := by omega
  have hs : toString (u32cast x) = toString (4294967296 + x) := by
    rw [h2, toString_toNat _ (by omega)]
  have l1 : Object.get st o (.int x) = getShape st o (toString (u32cast x)) (.int x) := rfl
  have l2 : Object.get st o (.str (toString (4294967296 + x))) =
      getShape st o (toString (4294967296 + x)) (.str (toString (4294967296 + x))) := rfl
  rw [l1, l2, hs]
  unfold getShape
  rcases hraw : JS_GetProperty st o (toString (4294967296 + x)) with ⟨st1, raw⟩
  dsimp only
  rcases hfv : from_js_value st1 raw with ⟨st2, res⟩
  dsimp only
  rw [dropValue_prim st2 (.int x) rfl, dropValue_prim st2 (.str _) rfl]

def c10State : Engine := ⟨[(0, [("4294967295", .int 9), ("-1", .int 7)])], [(0, 1)], none, 1⟩

/-- C10 witness: at the key -1 the fast path behaves as a get of the
property named "4294967295". -/
theorem c10_negative_key_cast_witness :
    ((-2147483648 : Int) ≤ -1 ∧ (-1 : Int) < 0) ∧
    (u32cast (-1) : Int) = 4294967296 + (-1) ∧
    Object.get c10State 0 (.int (-1)) =
      Object.get c10State 0 (.str (toString ((4294967296 : Int) + (-1)))) := by
  refine ⟨by decide, (c10_negative_key_cast (-1) (by decide) (by decide)).1,
    (c10_negative_key_cast (-1) (by decide) (by decide)).2 c10State 0⟩

/-! ## Claim C8: trampoline argument decoding

Modelled from the spec: the generated trampoline code of the binding
generator is not under src/.  Per section 4.5, function arity is derived
from the host signature and argument decoding walks the supplied Value
sequence positionally, producing a MissingArgument failure when the
count does not line up, before host logic runs. -/

inductive ArgTy : Type where
  | aInt : ArgTy
  | aStr : ArgTy
deriving DecidableEq, Repr

inductive HostArg : Type where
  | haInt (n : Int) : HostArg
  | haStr (s : String) : HostArg
deriving DecidableEq, Repr

def decodeArg : ArgTy → JSVal → Except Error HostArg
  | .aInt, v => (fromJsInt v).map .haInt
  | .aStr, v => (fromJsStr v).map .haStr

/-- Modelled from the spec: positional argument decoding with the arity
check derived from the host signature. -/
def decodeArgs : List ArgTy → List JSVal → Except Error (List HostArg)
  | tys, args =>
    if args.length < tys.length then .error .missingArgument
    else
      match tys, args with
      | [], _ => .ok []
      | t :: trest, a :: arest =>
        match decodeArg t a, decodeArgs trest arest with
        | .ok h, .ok hs => .ok (h :: hs)
        | .error e, _ => .error e
        | .ok _, .error e => .error e
      | _ :: _, [] => .error .missingArgument

/-- Modelled from the spec: a bound call decodes all arguments first and
only then runs the host logic on the decoded values. -/
def callBound (tys : List ArgTy) (f : List HostArg → JSVal)
    (args : List JSVal) : Except Error JSVal :=
  match decodeArgs tys args with
  | .ok hs => .ok (f hs)
  | .error e => .error e

/-- C8: calling a bound function with fewer Values than its declared
parameter count fails with MissingArgument before the host logic runs:
the call result is the MissingArgument error for every host body (so
the body is never consulted), and the total model performs no
out-of-bounds access by construction. -/
theorem c8_arity_enforcement (tys : List ArgTy) (args : List JSVal)
    (h : args.length < tys.length) :
    decodeArgs tys args = .error .missingArgument ∧
    ∀ f g : List HostArg → JSVal,
      callBound tys f args = .error .missingArgument ∧
      callBound tys f args = callBound tys g args := by
  have hd : decodeArgs tys args = .error .missingArgument := by
    unfold decodeArgs
    rw [if_pos h]
  refine ⟨hd, ?_⟩
  intro f g
  unfold callBound
  rw [hd]
  exact ⟨rfl, rfl⟩

/-- C8 witness: two declared parameters, one supplied value. -/
theorem c8_arity_enforcement_witness :
    ([JSVal.str "x"] : List JSVal).length < ([.aInt, .aInt] : List ArgTy).length ∧
    decodeArgs [.aInt, .aInt] [JSVal.str "x"] = .error .missingArgument := by
  exact ⟨by decide, (c8_arity_enforcement [.aInt, .aInt] [JSVal.str "x"] (by decide)).1⟩

/-! ## Claim C9: module binding, bare and nested

Modelled from the spec: the binder of the registration generator is not
under src/.  Per section 4.5, a module exposes its items as properties of one
object unless marked bare, in which case its items are installed
flattened into the parent scope instead of nested under the module
name; both forms support arbitrary nesting depth. -/

mutual
inductive ModItem : Type where
  | mfunc (name : String) : ModItem
  | mconst (name : String) (v : Int) : ModItem
  | mmodule (name : String) (bare : Bool) (items : ModItems) : ModItem
inductive ModItems : Type where
  | mnil : ModItems
  | mcons (i : ModItem) (rest : ModItems) : ModItems
end

mutual
inductive SVal : Type where
  | callable : SVal
  | data (n : Int) : SVal
  | object (props : Scope) : SVal
inductive Scope : Type where
  | snil : Scope
  | scons (name : String) (v : SVal) (rest : Scope) : Scope
end

def slookup (n : String) : Scope → Option SVal
  | .snil => none
  | .scons m v rest => if n = m then some v else slookup n rest

def sset (n : String) (v : SVal) : Scope → Scope
  | .snil => .scons n v .snil
  | .scons m w rest => if n = m then .scons n v rest else .scons m w (sset n v rest)

theorem slookup_sset_self (n : String) (v : SVal) : ∀ sc : Scope,
    slookup n (sset n v sc) = some v
  | .snil => by simp [sset, slookup]
  | .scons m w rest => by
    by_cases h : n = m
    · simp [sset, slookup, h]
    · simp [sset, slookup, h, slookup_sset_self n v rest]

theorem slookup_sset_ne (n m : String) (v : SVal) (h : n ≠ m) : ∀ sc : Scope,
    slookup n (sset m v sc) = slookup n sc
  | .snil => by simp [sset, slookup, h]
  | .scons m' w rest => by
    by_cases h1 : m = m'
    · subst h1
      simp [sset, slookup, h]
    · by_cases h2 : n = m'
      · simp [sset, slookup, h1, h2]
      · simp [sset, slookup, h1, h2, slookup_sset_ne n m v h rest]

mutual
/-- Modelled from the spec: installing a binding item into a scope.  A
function installs a callable property, a constant a data property; a
nested module installs one object property holding its items, a bare
module installs its items directly into the parent scope. -/
def installItem (sc : Scope) : ModItem → Scope
  | .mfunc n => sset n .callable sc
  | .mconst n v => sset n (.data v) sc
  | .mmodule n b items =>
    if b then installItems sc items
    else sset n (.object (installItems .snil items)) sc
def installItems (sc : Scope) : ModItems → Scope
  | .mnil => sc
  | .mcons i rest => installItems (installItem sc i) rest
end

mutual
/-- The names an item installs at the level of the parent scope (a bare
module contributes the names of its contents). -/
def topNameItem (n : String) : ModItem → Bool
  | .mfunc m => m == n
  | .mconst m _ => m == n
  | .mmodule m b items => if b then topNamesContain n items else m == n
def topNamesContain (n : String) : ModItems → Bool
  | .mnil => false
  | .mcons i rest => topNameItem n i || topNamesContain n rest
end

/-- The item list contains, at the top level, a direct function named n
that no later item shadows. -/
def freshFunc (n : String) : ModItems → Bool
  | .mnil => false
  | .mcons i rest =>
    (match i with
      | .mfunc m => m == n && !(topNamesContain n rest)
      | _ => false) ||
    freshFunc n rest

mutual
theorem installItem_preserves (n : String) (i : ModItem) (sc : Scope)
    (h : topNameItem n i = false) : slookup n (installItem sc i) = slookup n sc := by
  cases i with
  | mfunc m =>
    have hm : n ≠ m := by
      intro he
      subst he
      simp [topNameItem] at h
    exact slookup_sset_ne n m _ hm sc
  | mconst m v =>
    have hm : n ≠ m := by
      intro he
      subst he
      simp [topNameItem] at h
    exact slookup_sset_ne n m _ hm sc
  | mmodule m b items =>
    cases b with
    | true =>
      have h' : topNamesContain n items = false := by
        simpa [topNameItem] using h
      show slookup n (installItems sc items) = slookup n sc
      exact installItems_preserves n items sc h'
    | false =>
      have hm : n ≠ m := by
        intro he
        subst he
        simp [topNameItem] at h
      show slookup n (sset m _ sc) = slookup n sc
      exact slookup_sset_ne n m _ hm sc
theorem installItems_preserves (n : String) (items : ModItems) (sc : Scope)
    (h : topNamesContain n items = false) :
    slookup n (installItems sc items) = slookup n sc := by
  cases items with
  | mnil => rfl
  | mcons i rest =>
    have hparts : topNameItem n i = false ∧ topNamesContain n rest = false := by
      simpa [topNamesContain, Bool.or_eq_false_iff] using h
    show slookup n (installItems (installItem sc i) rest) = slookup n sc
    rw [installItems_preserves n rest (installItem sc i) hparts.2]
    exact installItem_preserves n i sc hparts.1
end

theorem freshFunc_installs (n : String) : ∀ (items : ModItems) (sc : Scope),
    freshFunc n items = true → slookup n (installItems sc items) = some .callable
  | .mnil, sc, h => by simp [freshFunc] at h
  | .mcons i rest, sc, h => by
    show slookup n (installItems (installItem sc i) rest) = some .callable
    by_cases hf : freshFunc n rest = true
    · exact freshFunc_installs n rest (installItem sc i) hf
    · cases i with
      | mfunc m =>
        have hor : ((m == n && !(topNamesContain n rest)) || freshFunc n rest) = true := h
        rcases Bool.or_eq_true_iff.mp hor with hleft | hright
        · have hm : m = n ∧ topNamesContain n rest = false := by simpa using hleft
          have hmn : m = n := hm.1
          have htop : topNamesContain n rest = false := hm.2
          rw [installItems_preserves n rest _ htop]
          show slookup n (sset m .callable sc) = some .callable
          rw [hmn, slookup_sset_self]
        · exact absurd hright hf
      | mconst m v =>
        have hor : (false || freshFunc n rest) = true := h
        exact absurd (by simpa using hor) hf
      | mmodule m b its =>
        have hor : (false || freshFunc n rest) = true := h
        exact absurd (by simpa using hor) hf

/-- C9: binding a module M nested installs a single property M on the
parent scope whose property f is callable, leaving every other parent
binding untouched; binding M bare installs f directly as a property of
the parent scope and creates no property named M; the model is
recursive, so both forms apply at arbitrary nesting depth. -/
theorem c9_bare_vs_nested (sc : Scope) (nM nf : String) (items : ModItems)
    (hf : freshFunc nf items = true) (hM : topNamesContain nM items = false) :
    (slookup nM (installItem sc (.mmodule nM false items)) =
        some (.object (installItems .snil items)) ∧
      slookup nf (installItems .snil items) = some .callable ∧
      ∀ n, n ≠ nM →
        slookup n (installItem sc (.mmodule nM false items)) = slookup n sc) ∧
    (slookup nf (installItem sc (.mmodule nM true items)) = some .callable ∧
      slookup nM (installItem sc (.mmodule nM true items)) = slookup nM sc) := by
  refine ⟨⟨?_, ?_, ?_⟩, ?_, ?_⟩
  · show slookup nM (sset nM (.object (installItems .snil items)) sc) = _
    rw [slookup_sset_self]
  · exact freshFunc_installs nf items .snil hf
  · intro n hn
    show slookup n (sset nM (.object (installItems .snil items)) sc) = _
    exact slookup_sset_ne n nM _ hn sc
  · show slookup nf (installItems sc items) = _
    exact freshFunc_installs nf items sc hf
  · show slookup nM (installItems sc items) = _
    exact installItems_preserves nM items sc hM

def c9Items : ModItems := .mcons (.mfunc "f") .mnil

/-- C9 witness: a module M with one function f, installed nested and
bare into an empty parent scope. -/
theorem c9_bare_vs_nested_witness :
    freshFunc "f" c9Items = true ∧
    topNamesContain "M" c9Items = false ∧
    slookup "M" (installItem .snil (.mmodule "M" false c9Items)) =
      some (.object (installItems .snil c9Items)) ∧
    slookup "f" (installItem .snil (.mmodule "M" true c9Items)) = some .callable := by
  refine ⟨by decide, by decide, ?_, ?_⟩
  · exact (c9_bare_vs_nested .snil "M" "f" c9Items (by decide) (by decide)).1.1
  · exact (c9_bare_vs_nested .snil "M" "f" c9Items (by decide) (by decide)).2.1

/-! ## Claim C5: derived conversions and their round trip

Modelled from the spec: the derive implementations of the conversion
capabilities are not under src/.  Per section 4.2 the derived encodings are
structural: a unit struct maps to Undefined, a tuple struct to a
fixed-length positional array, a field struct to an object with one
property per field, a unit enum variant to its string tag, and a
tuple/field enum variant to a single-key object whose key is the
variant tag and whose value is the payload encoding; decode is the
symmetric inverse, directed by the shape of the host type. -/

mutual
inductive HostVal : Type where
  | hInt (n : Int) : HostVal
  | hBool (b : Bool) : HostVal
  | hStr (s : String) : HostVal
  | hUnit : HostVal
  | hTuple (fields : HostList) : HostVal
  | hFields (fields : HostFields) : HostVal
  | hEnumUnit (tag : String) : HostVal
  | hEnumTuple (tag : String) (payload : HostList) : HostVal
  | hEnumFields (tag : String) (fields : HostFields) : HostVal
inductive HostList : Type where
  | hnil : HostList
  | hcons (v : HostVal) (rest : HostList) : HostList
inductive HostFields : Type where
  | hfnil : HostFields
  | hfcons (name : String) (v : HostVal) (rest : HostFields) : HostFields
end

/-- Structural engine data produced and consumed by the derived
conversions (the value layer of the engine, without heap identity). -/
inductive JSData : Type where
  | dundefined : JSData
  | dnull : JSData
  | dbool (b : Bool) : JSData
  | dint (n : Int) : JSData
  | dstr (s : String) : JSData
  | darray (items : List JSData) : JSData
  | dobject (props : List (String × JSData)) : JSData

mutual
/-- The shape of a host type requesting derived conversions: primitive
leaves, tuple struct, field struct, or an enum given by its variants. -/
inductive HShape : Type where
  | sInt : HShape
  | sBool : HShape
  | sStr : HShape
  | sUnit : HShape
  | sTuple (elems : ShapeList) : HShape
  | sFields (fields : ShapeFields) : HShape
  | sEnum (variants : Variants) : HShape
inductive ShapeList : Type where
  | lnil : ShapeList
  | lcons (s : HShape) (rest : ShapeList) : ShapeList
inductive ShapeFields : Type where
  | fnil : ShapeFields
  | fcons (name : String) (s : HShape) (rest : ShapeFields) : ShapeFields
inductive Variants : Type where
  | vnil : Variants
  | vcons (tag : String) (vsh : VShape) (rest : Variants) : Variants
inductive VShape : Type where
  | vUnit : VShape
  | vTuple (elems : ShapeList) : VShape
  | vFields (fields : ShapeFields) : VShape
end

mutual
/-- Modelled from the spec: the derived encode (IntoJs) of a host
value. -/
def encode : HostVal → JSData
  | .hInt n => .dint n
  | .hBool b => .dbool b
  | .hStr s => .dstr s
  | .hUnit => .dundefined
  | .hTuple fs => .darray (encodeList fs)
  | .hFields fs => .dobject (encodeFields fs)
  | .hEnumUnit t => .dstr t
  | .hEnumTuple t p => .dobject [(t, .darray (encodeList p))]
  | .hEnumFields t fs => .dobject [(t, .dobject (encodeFields fs))]
def encodeList : HostList → List JSData
  | .hnil => []
  | .hcons v rest => encode v :: encodeList rest
def encodeFields : HostFields → List (String × JSData)
  | .hfnil => []
  | .hfcons n v rest => (n, encode v) :: encodeFields rest
end

mutual
/-- Modelled from the spec: the derived decode (FromJs), directed by
the shape of the requested host type. -/
def decode : HShape → JSData → Option HostVal
  | .sInt, .dint n => some (.hInt n)
  | .sBool, .dbool b => some (.hBool b)
  | .sStr, .dstr s => some (.hStr s)
  | .sUnit, .dundefined => some .hUnit
  | .sUnit, .dnull => some .hUnit
  | .sTuple ss, .darray items =>
    match decodeList ss items with
    | some fs => some (.hTuple fs)
    | none => none
  | .sFields fss, .dobject props =>
    match decodeFields fss props with
    | some fs => some (.hFields fs)
    | none => none
  | .sEnum vs, .dstr t => decodeEnumUnit vs t
  | .sEnum vs, .dobject [(t, w)] => decodeEnumPayload vs t w
  | _, _ => none
def decodeList : ShapeList → List JSData → Option HostList
  | .lnil, [] => some .hnil
  | .lcons s sr, v :: vr =>
    match decode s v, decodeList sr vr with
    | some h, some hs => some (.hcons h hs)
    | _, _ => none
  | _, _ => none
def decodeFields : ShapeFields → List (String × JSData) → Option HostFields
  | .fnil, _ => some .hfnil
  | .fcons m s sr, props =>
    match alookup m props with
    | some w =>
      match decode s w, decodeFields sr props with
      | some h, some hs => some (.hfcons m h hs)
      | _, _ => none
    | none => none
def decodeEnumUnit : Variants → String → Option HostVal
  | .vnil, _ => none
  | .vcons t .vUnit rest, t' =>
    if t' = t then some (.hEnumUnit t) else decodeEnumUnit rest t'
  | .vcons t _ rest, t' =>
    if t' = t then none else decodeEnumUnit rest t'
def decodeEnumPayload : Variants → String → JSData → Option HostVal
  | .vnil, _, _ => none
  | .vcons t (.vTuple ss) rest, t', w =>
    if t' = t then
      match w with
      | .darray items =>
        match decodeList ss items with
        | some p => some (.hEnumTuple t p)
        | none => none
      | _ => none
    else decodeEnumPayload rest t' w
  | .vcons t (.vFields fss) rest, t', w =>
    if t' = t then
      match w with
      | .dobject props =>
        match decodeFields fss props with
        | some fs => some (.hEnumFields t fs)
        | none => none
      | _ => none
    else decodeEnumPayload rest t' w
  | .vcons t .vUnit rest, t', w =>
    if t' = t then none else decodeEnumPayload rest t' w
end

mutual
/-- The typing relation between a host value and a shape, mirroring the
structure of the derived conversions. -/
def hasShape : HShape → HostVal → Bool
  | .sInt, .hInt _ => true
  | .sBool, .hBool _ => true
  | .sStr, .hStr _ => true
  | .sUnit, .hUnit => true
  | .sTuple ss, .hTuple fs => hasShapeList ss fs
  | .sFields fss, .hFields fs => hasShapeFields fss fs
  | .sEnum vs, x => enumHas vs x
  | _, _ => false
def hasShapeList : ShapeList → HostList → Bool
  | .lnil, .hnil => true
  | .lcons s sr, .hcons v vr => hasShape s v && hasShapeList sr vr
  | _, _ => false
def hasShapeFields : ShapeFields → HostFields → Bool
  | .fnil, .hfnil => true
  | .fcons m s sr, .hfcons n v vr => (n == m) && hasShape s v && hasShapeFields sr vr
  | _, _ => false
def enumHas : Variants → HostVal → Bool
  | .vnil, _ => false
  | .vcons t .vUnit rest, .hEnumUnit t' =>
    if t' = t then true else enumHas rest (.hEnumUnit t')
  | .vcons t (.vTuple ss) rest, .hEnumTuple t' p =>
    if t' = t then hasShapeList ss p else enumHas rest (.hEnumTuple t' p)
  | .vcons t (.vFields fss) rest, .hEnumFields t' fs =>
    if t' = t then hasShapeFields fss fs else enumHas rest (.hEnumFields t' fs)
  | .vcons t _ rest, .hEnumUnit t' =>
    if t' = t then false else enumHas rest (.hEnumUnit t')
  | .vcons t _ rest, .hEnumTuple t' p =>
    if t' = t then false else enumHas rest (.hEnumTuple t' p)
  | .vcons t _ rest, .hEnumFields t' fs =>
    if t' = t then false else enumHas rest (.hEnumFields t' fs)
  | .vcons _ _ _, _ => false
end

def fieldNamed (n : String) : ShapeFields → Bool
  | .fnil => false
  | .fcons m _ rest => (m == n) || fieldNamed n rest

mutual
/-- Well-formedness of a shape: within each object form the field names
are distinct, recursively. -/
def wfShape : HShape → Bool
  | .sInt => true
  | .sBool => true
  | .sStr => true
  | .sUnit => true
  | .sTuple ss => wfShapeList ss
  | .sFields fss => wfShapeFields fss
  | .sEnum vs => wfVariants vs
def wfShapeList : ShapeList → Bool
  | .lnil => true
  | .lcons s sr => wfShape s && wfShapeList sr
def wfShapeFields : ShapeFields → Bool
  | .fnil => true
  | .fcons m s sr => !(fieldNamed m sr) && wfShape s && wfShapeFields sr
def wfVariants : Variants → Bool
  | .vnil => true
  | .vcons _ .vUnit rest => wfVariants rest
  | .vcons _ (.vTuple ss) rest => wfShapeList ss && wfVariants rest
  | .vcons _ (.vFields fss) rest => wfShapeFields fss && wfVariants rest
end

def isEnumVal : HostVal → Bool
  | .hEnumUnit _ => true
  | .hEnumTuple _ _ => true
  | .hEnumFields _ _ => true
  | _ => false

theorem enumHas_nonenum (x : HostVal) (hx : isEnumVal x = false) :
    ∀ vs : Variants, enumHas vs x = false
  | .vnil => rfl
  | .vcons t vsh rest => by
    cases x with
    | hEnumUnit t' => simp [isEnumVal] at hx
    | hEnumTuple t' p => simp [isEnumVal] at hx
    | hEnumFields t' fs => simp [isEnumVal] at hx
    | hInt n => cases vsh <;> rfl
    | hBool b => cases vsh <;> rfl
    | hStr s => cases vsh <;> rfl
    | hUnit => cases vsh <;> rfl
    | hTuple fs => cases vsh <;> rfl
    | hFields fs => cases vsh <;> rfl

theorem decodeFields_skip (n : String) (e : JSData) :
    ∀ (fss : ShapeFields) (props : List (String × JSData)),
    fieldNamed n fss = false →
    decodeFields fss ((n, e) :: props) = decodeFields fss props
  | .fnil, props, h => rfl
  | .fcons m s sr, props, h => by
    have hparts : (m == n) = false ∧ fieldNamed n sr = false := by
      simpa [fieldNamed, Bool.or_eq_false_iff] using h
    have hne : m ≠ n := by
      intro he
      rw [he] at hparts
      simp at hparts
    have hl : alookup m ((n, e) :: props) = alookup m props := by
      simp [alookup, hne]
    simp only [decodeFields]
    rw [hl, decodeFields_skip n e sr props hparts.2]

theorem decodeEnumUnit_of (t : String) :
    ∀ vs : Variants, enumHas vs (.hEnumUnit t) = true →
    decodeEnumUnit vs t = some (.hEnumUnit t)
  | .vnil, h => by simp [enumHas] at h
  | .vcons t0 vsh rest, h => by
    by_cases he : t = t0
    · subst he
      cases vsh with
      | vUnit => simp [decodeEnumUnit]
      | vTuple ss => simp [enumHas] at h
      | vFields fss => simp [enumHas] at h
    · cases vsh with
      | vUnit =>
        have h' : enumHas rest (.hEnumUnit t) = true := by
          simpa [enumHas, if_neg he] using h
        simpa [decodeEnumUnit, if_neg he] using decodeEnumUnit_of t rest h'
      | vTuple ss =>
        have h' : enumHas rest (.hEnumUnit t) = true := by
          simpa [enumHas, if_neg he] using h
        simpa [decodeEnumUnit, if_neg he] using decodeEnumUnit_of t rest h'
      | vFields fss =>
        have h' : enumHas rest (.hEnumUnit t) = true := by
          simpa [enumHas, if_neg he] using h
        simpa [decodeEnumUnit, if_neg he] using decodeEnumUnit_of t rest h'

theorem decodeEnumTuple_of (t : String) (p : HostList)
    (IH : ∀ ss, hasShapeList ss p = true → wfShapeList ss = true →
      decodeList ss (encodeList p) = some p) :
    ∀ vs : Variants, enumHas vs (.hEnumTuple t p) = true → wfVariants vs = true →
    decodeEnumPayload vs t (.darray (encodeList p)) = some (.hEnumTuple t p)
  | .vnil, h, _ => by simp [enumHas] at h
  | .vcons t0 vsh rest, h, hw => by
    by_cases he : t = t0
    · subst he
      cases vsh with
      | vTuple ss =>
        have hss : hasShapeList ss p = true := by simpa [enumHas] using h
        have hw2 : wfShapeList ss = true ∧ wfVariants rest = true := by
          simpa [wfVariants] using hw
        simp [decodeEnumPayload, IH ss hss hw2.1]
      | vUnit => simp [enumHas] at h
      | vFields fss => simp [enumHas] at h
    · cases vsh with
      | vUnit =>
        have h' : enumHas rest (.hEnumTuple t p) = true := by
          simpa [enumHas, if_neg he] using h
        have hw' : wfVariants rest = true := by simpa [wfVariants] using hw
        simpa [decodeEnumPayload, if_neg he] using decodeEnumTuple_of t p IH rest h' hw'
      | vTuple ss =>
        have h' : enumHas rest (.hEnumTuple t p) = true := by
          simpa [enumHas, if_neg he] using h
        have hw2 : wfShapeList ss = true ∧ wfVariants rest = true := by
          simpa [wfVariants] using hw
        simpa [decodeEnumPayload, if_neg he] using
          decodeEnumTuple_of t p IH rest h' hw2.2
      | vFields fss =>
        have h' : enumHas rest (.hEnumTuple t p) = true := by
          simpa [enumHas, if_neg he] using h
        have hw2 : wfShapeFields fss = true ∧ wfVariants rest = true := by
          simpa [wfVariants] using hw
        simpa [decodeEnumPayload, if_neg he] using
          decodeEnumTuple_of t p IH rest h' hw2.2

theorem decodeEnumFields_of (t : String) (fs : HostFields)
    (IH : ∀ fss, hasShapeFields fss fs = true → wfShapeFields fss = true →
      decodeFields fss (encodeFields fs) = some fs) :
    ∀ vs : Variants, enumHas vs (.hEnumFields t fs) = true → wfVariants vs = true →
    decodeEnumPayload vs t (.dobject (encodeFields fs)) = some (.hEnumFields t fs)
  | .vnil, h, _ => by simp [enumHas] at h
  | .vcons t0 vsh rest, h, hw => by
    by_cases he : t = t0
    · subst he
      cases vsh with
      | vFields fss =>
        have hss : hasShapeFields fss fs = true := by simpa [enumHas] using h
        have hw2 : wfShapeFields fss = true ∧ wfVariants rest = true := by
          simpa [wfVariants] using hw
        simp [decodeEnumPayload, IH fss hss hw2.1]
      | vUnit => simp [enumHas] at h
      | vTuple ss => simp [enumHas] at h
    · cases vsh with
      | vUnit =>
        have h' : enumHas rest (.hEnumFields t fs) = true := by
          simpa [enumHas, if_neg he] using h
        have hw' : wfVariants rest = true := by simpa [wfVariants] using hw
        simpa [decodeEnumPayload, if_neg he] using
          decodeEnumFields_of t fs IH rest h' hw'
      | vTuple ss =>
        have h' : enumHas rest (.hEnumFields t fs) = true := by
          simpa [enumHas, if_neg he] using h
        have hw2 : wfShapeList ss = true ∧ wfVariants rest = true := by
          simpa [wfVariants] using hw
        simpa [decodeEnumPayload, if_neg he] using
          decodeEnumFields_of t fs IH rest h' hw2.2
      | vFields fss =>
        have h' : enumHas rest (.hEnumFields t fs) = true := by
          simpa [enumHas, if_neg he] using h
        have hw2 : wfShapeFields fss = true ∧ wfVariants rest = true := by
          simpa [wfVariants] using hw
        simpa [decodeEnumPayload, if_neg he] using
          decodeEnumFields_of t fs IH rest h' hw2.2

mutual
theorem roundtrip (x : HostVal) : ∀ s : HShape, hasShape s x = true →
    wfShape s = true → decode s (encode x) = some x := by
  cases x with
  | hInt n =>
    intro s h hw
    cases s
    case sInt => rfl
    all_goals simp [hasShape, enumHas_nonenum (.hInt n) rfl] at h
  | hBool b =>
    intro s h hw
    cases s
    case sBool => rfl
    all_goals simp [hasShape, enumHas_nonenum (.hBool b) rfl] at h
  | hStr s0 =>
    intro s h hw
    cases s
    case sStr => rfl
    all_goals simp [hasShape, enumHas_nonenum (.hStr s0) rfl] at h
  | hUnit =>
    intro s h hw
    cases s
    case sUnit => rfl
    all_goals simp [hasShape, enumHas_nonenum .hUnit rfl] at h
  | hTuple fs =>
    intro s h hw
    cases s
    case sTuple ss =>
      have h' : hasShapeList ss fs = true := h
      have hw' : wfShapeList ss = true := hw
      have r := roundtripList fs ss h' hw'
      show decode (.sTuple ss) (.darray (encodeList fs)) = some (.hTuple fs)
      simp [decode, r]
    all_goals simp [hasShape, enumHas_nonenum (.hTuple fs) rfl] at h
  | hFields fs =>
    intro s h hw
    cases s
    case sFields fss =>
      have h' : hasShapeFields fss fs = true := h
      have hw' : wfShapeFields fss = true := hw
      have r := roundtripFields fs fss h' hw'
      show decode (.sFields fss) (.dobject (encodeFields fs)) = some (.hFields fs)
      simp [decode, r]
    all_goals simp [hasShape, enumHas_nonenum (.hFields fs) rfl] at h
  | hEnumUnit t =>
    intro s h hw
    cases s
    case sEnum vs =>
      have h' : enumHas vs (.hEnumUnit t) = true := h
      exact decodeEnumUnit_of t vs h'
    all_goals simp [hasShape] at h
  | hEnumTuple t p =>
    intro s h hw
    cases s
    case sEnum vs =>
      have h' : enumHas vs (.hEnumTuple t p) = true := h
      have hw' : wfVariants vs = true := hw
      exact decodeEnumTuple_of t p
        (fun ss hss hwss => roundtripList p ss hss hwss) vs h' hw'
    all_goals simp [hasShape] at h
  | hEnumFields t fs =>
    intro s h hw
    cases s
    case sEnum vs =>
      have h' : enumHas vs (.hEnumFields t fs) = true := h
      have hw' : wfVariants vs = true := hw
      exact decodeEnumFields_of t fs
        (fun fss hss hwss => roundtripFields fs fss hss hwss) vs h' hw'
    all_goals simp [hasShape] at h
theorem roundtripList (xs : HostList) : ∀ ss : ShapeList, hasShapeList ss xs = true →
    wfShapeList ss = true → decodeList ss (encodeList xs) = some xs := by
  cases xs with
  | hnil =>
    intro ss h hw
    cases ss with
    | lnil => rfl
    | lcons s sr => simp [hasShapeList] at h
  | hcons v vr =>
    intro ss h hw
    cases ss with
    | lnil => simp [hasShapeList] at h
    | lcons s sr =>
      have hp : hasShape s v = true ∧ hasShapeList sr vr = true := by
        simpa [hasShapeList] using h
      have hwp : wfShape s = true ∧ wfShapeList sr = true := by
        simpa [wfShapeList] using hw
      have r1 := roundtrip v s hp.1 hwp.1
      have r2 := roundtripList vr sr hp.2 hwp.2
      show decodeList (.lcons s sr) (encode v :: encodeList vr) = some (.hcons v vr)
      simp [decodeList, r1, r2]
theorem roundtripFields (fs : HostFields) : ∀ fss : ShapeFields,
    hasShapeFields fss fs = true → wfShapeFields fss = true →
    decodeFields fss (encodeFields fs) = some fs := by
  cases fs with
  | hfnil =>
    intro fss h hw
    cases fss with
    | fnil => rfl
    | fcons m s sr => simp [hasShapeFields] at h
  | hfcons n v vr =>
    intro fss h hw
    cases fss with
    | fnil => simp [hasShapeFields] at h
    | fcons m s sr =>
      have hp : (n = m ∧ hasShape s v = true) ∧ hasShapeFields sr vr = true := by
        simpa [hasShapeFields] using h
      have hwp : (fieldNamed m sr = false ∧ wfShape s = true) ∧
          wfShapeFields sr = true := by
        simpa [wfShapeFields] using hw
      obtain ⟨⟨hnm, hsv⟩, htl⟩ := hp
      obtain ⟨⟨hfn, hws⟩, hwtl⟩ := hwp
      subst hnm
      have r1 := roundtrip v s hsv hws
      have r2 := roundtripFields vr sr htl hwtl
      have hskip := decodeFields_skip n (encode v) sr (encodeFields vr) hfn
      show decodeFields (.fcons n s sr) ((n, encode v) :: encodeFields vr) =
        some (.hfcons n v vr)
      simp [decodeFields, alookup, hskip, r1, r2]
end

/-- C5: round trip of the derived conversions.  For every host value x
of a well-formed shape (structs, enums, primitives and their nested
combinations, with distinct field names), decoding the encoding of x
yields x again. -/
theorem c5_roundtrip (x : HostVal) (s : HShape) (h : hasShape s x = true)
    (hw : wfShape s = true) : decode s (encode x) = some x :=
  roundtrip x s h hw

def c5Shape : HShape :=
  .sEnum (.vcons "Bar" .vUnit
    (.vcons "Foo"
      (.vFields (.fcons "a" .sInt
        (.fcons "b" (.sTuple (.lcons .sStr (.lcons .sBool .lnil))) .fnil)))
      .vnil))

def c5Val : HostVal :=
  .hEnumFields "Foo"
    (.hfcons "a" (.hInt 3)
      (.hfcons "b" (.hTuple (.hcons (.hStr "z") (.hcons (.hBool true) .hnil)))
        .hfnil))

/-- C5 witness: a field-variant enum whose payload nests a tuple struct
round-trips through encode and decode. -/
theorem c5_roundtrip_witness :
    hasShape c5Shape c5Val = true ∧ wfShape c5Shape = true ∧
    decode c5Shape (encode c5Val) = some c5Val := by
  refine ⟨by decide, by decide, ?_⟩
  exact c5_roundtrip c5Val c5Shape (by decide) (by decide)

end Rqjs
